import Mathlib

/-!
# Length-prefixed framing (package lproto, proto.go)

A shallow embedding of the frame writer and frame reader of proto.go together
with the parts of the Go standard library they call (io.Writer, io.Reader,
encoding/binary.Write, encoding/binary.Read, io.ReadFull, bytes.Buffer).

Conventions of the embedding:

* a byte is a value of Fin 256, a byte slice is a List of bytes, a Go nil
  slice result is Option.none;
* a Go error value is Option Error, nil being none;
* a Go int is an Int; additions of counts reported by a stream are reduced
  to the signed 64-bit range with wrap64;
* an io.Writer or io.Reader is a pure transition function on an explicit
  stream state;
* the for-loops take a fuel argument bounding the number of stream calls;
  Outcome.timeout is an exhausted bound, Outcome.panic a slice expression
  whose index is out of range.
-/

namespace lproto

/-! ## Data model -/

/-- One byte. -/
abbrev Byte := Fin 256

/-- Go error values that occur in proto.go and in the library code it calls. -/
inductive Error where
  /-- proto.go: errExceededPayload, "payload size exceeded". -/
  | errExceededPayload
  /-- proto.go: errIncompleteRead, "incomplete read". -/
  | errIncompleteRead
  /-- io.EOF. -/
  | EOF
  /-- io.ErrUnexpectedEOF. -/
  | ErrUnexpectedEOF
  /-- io.ErrShortBuffer. -/
  | ErrShortBuffer
  /-- io.ErrShortWrite. -/
  | ErrShortWrite
  /-- Any other error of the underlying stream, told apart by a code. -/
  | other (code : Nat)
deriving DecidableEq, Repr

/-- The text of an error (Go: err.Error()). -/
def Error.text : Error → String
  | .errExceededPayload => "payload size exceeded"
  | .errIncompleteRead => "incomplete read"
  | .EOF => "EOF"
  | .ErrUnexpectedEOF => "unexpected EOF"
  | .ErrShortBuffer => "short buffer"
  | .ErrShortWrite => "short write"
  | .other _ => "i/o error"

/-- How a call ends: it returns a value, it panics, or the bound on the
number of stream calls is used up before the loop ends. -/
inductive Outcome (α : Type) where
  | ret (a : α)
  | panic
  | timeout
deriving DecidableEq, Repr

/-- An io.Writer over stream state σ: Write(p) gives the new state, the
reported count n and the error. -/
structure Writer (σ : Type) where
  Write : σ → List Byte → σ × Int × Option Error

/-- An io.Reader over stream state σ: Read(p) is given the contents of the
slice p and gives the new state, the bytes it stored at the front of p, the
reported count n and the error. -/
structure Reader (σ : Type) where
  Read : σ → List Byte → σ × List Byte × Int × Option Error

/-- The contents of a slice after a reader stored the bytes out at its front;
the length of the slice does not change. -/
def overlay (out buf : List Byte) : List Byte :=
  (out ++ buf.drop out.length).take buf.length

/-- Reduction of an integer to the signed 64-bit range (Go int arithmetic). -/
def wrap64 (x : Int) : Int :=
  (x + 2 ^ 63) % 2 ^ 64 - 2 ^ 63

/-- proto.go: const payloadMaxSize uint32 = (4 * 1024 * 1024 * 1024) - 1. -/
def payloadMaxSize : Nat := (4 * 1024 * 1024 * 1024) - 1

/-- The conversion uint32(l) of a non-negative int. -/
def uint32 (l : Nat) : Nat := l % 2 ^ 32

/-- The conversion byte(v) of an unsigned value. -/
def toByte (v : Nat) : Byte := ⟨v % 256, Nat.mod_lt v (by decide)⟩

/-- binary.BigEndian.PutUint32: the four bytes of v, most significant first. -/
def PutUint32 (v : Nat) : List Byte :=
  [toByte (v >>> 24), toByte (v >>> 16), toByte (v >>> 8), toByte v]

/-- binary.BigEndian.Uint32 on a slice of four bytes. -/
def Uint32 : List Byte → Nat
  | [b0, b1, b2, b3] => b3.val ||| b2.val <<< 8 ||| b1.val <<< 16 ||| b0.val <<< 24
  | _ => 0

/-! ## Library code called by proto.go -/

/-- encoding/binary.Write for a uint32 value with big-endian order: the value
is encoded into four bytes and handed to the writer in one Write call whose
count is dropped. -/
def binaryWrite {σ : Type} (W : Writer σ) (s : σ) (v : Nat) : σ × Option Error :=
  let r := W.Write s (PutUint32 v)
  (r.1, r.2.2)

/-- The loop of io.ReadAtLeast:
for n < min && err == nil { nn, err = r.Read(buf[n:]); n += nn }. -/
def readAtLeastLoop {σ : Type} (R : Reader σ) (min : Int) :
    Nat → σ → List Byte → Int → Option Error →
      Outcome (σ × List Byte × Int × Option Error)
  | 0, s, buf, n, err =>
    if n < min ∧ err = none then .timeout else .ret (s, buf, n, err)
  | fuel + 1, s, buf, n, err =>
    if n < min ∧ err = none then
      if n < 0 ∨ (buf.length : Int) < n then .panic
      else
        let r := R.Read s (buf.drop n.toNat)
        readAtLeastLoop R min fuel r.1
          (buf.take n.toNat ++ overlay r.2.1 (buf.drop n.toNat))
          (wrap64 (n + r.2.2.1)) r.2.2.2
    else .ret (s, buf, n, err)

/-- io.ReadAtLeast. -/
def ReadAtLeast {σ : Type} (R : Reader σ) (s : σ) (buf : List Byte) (min : Int)
    (fuel : Nat) : Outcome (σ × List Byte × Int × Option Error) :=
  if (buf.length : Int) < min then .ret (s, buf, 0, some .ErrShortBuffer)
  else
    match readAtLeastLoop R min fuel s buf 0 none with
    | .ret (s1, buf1, n, err) =>
      if n ≥ min then .ret (s1, buf1, n, none)
      else if 0 < n ∧ err = some .EOF then .ret (s1, buf1, n, some .ErrUnexpectedEOF)
      else .ret (s1, buf1, n, err)
    | .panic => .panic
    | .timeout => .timeout

/-- io.ReadFull(r, buf) = ReadAtLeast(r, buf, len(buf)). -/
def ReadFull {σ : Type} (R : Reader σ) (s : σ) (buf : List Byte) (fuel : Nat) :
    Outcome (σ × List Byte × Int × Option Error) :=
  ReadAtLeast R s buf buf.length fuel

/-- encoding/binary.Read into a *uint32 with big-endian order: four bytes are
read with io.ReadFull and decoded; on an error the target keeps its value,
which the caller initialised to 0. -/
def binaryRead {σ : Type} (R : Reader σ) (s : σ) (fuel : Nat) :
    Outcome (σ × Nat × Option Error) :=
  match ReadFull R s (List.replicate 4 0) fuel with
  | .ret (s1, _, _, some e) => .ret (s1, 0, some e)
  | .ret (s1, bs, _, none) => .ret (s1, Uint32 bs, none)
  | .panic => .panic
  | .timeout => .timeout

/-! ## proto.go: FrameWriter -/

/-- FrameWriter.WriteHeader: one Write call on the one-byte slice, the count
dropped. -/
def WriteHeader {σ : Type} (W : Writer σ) (s : σ) (h : Byte) : σ × Option Error :=
  let r := W.Write s [h]
  (r.1, r.2.2)

/-- The body loop of FrameWriter.WriteFrame, entered with the count c and the
current value of err:
for { if c == l { break }; if n, err = w.w.Write(data[c:]); err != nil { break }; c += n }
followed by return c, err. -/
def writeLoop {σ : Type} (W : Writer σ) (data : List Byte) :
    Nat → σ → Int → Option Error → Outcome (σ × Int × Option Error)
  | 0, s, c, err =>
    if c = (data.length : Int) then .ret (s, c, err) else .timeout
  | fuel + 1, s, c, err =>
    if c = (data.length : Int) then .ret (s, c, err)
    else if c < 0 ∨ (data.length : Int) < c then .panic
    else
      let r := W.Write s (data.drop c.toNat)
      if r.2.2 ≠ none then .ret (r.1, c, r.2.2)
      else writeLoop W data fuel r.1 (wrap64 (c + r.2.1)) r.2.2

/-- FrameWriter.WriteFrame: the new stream state, the returned count and the
returned error. -/
def WriteFrame {σ : Type} (W : Writer σ) (s : σ) (data : List Byte) (fuel : Nat) :
    Outcome (σ × Int × Option Error) :=
  let l := data.length
  if l > payloadMaxSize then .ret (s, 0, some .errExceededPayload)
  else
    match binaryWrite W s (uint32 l) with
    | (s1, some e) => .ret (s1, 0, some e)
    | (s1, none) => writeLoop W data fuel s1 0 none

/-! ## proto.go: FrameReader -/

/-- FrameReader.ReadHeader: the new stream state, the returned byte p[0] and
the returned error. -/
def ReadHeader {σ : Type} (R : Reader σ) (s : σ) : σ × Byte × Option Error :=
  let p : List Byte := List.replicate 1 0
  let r := R.Read s p
  let p1 := overlay r.2.1 p
  let err := if r.2.2.2 = none ∧ r.2.2.1 ≠ 1 then some Error.errIncompleteRead else r.2.2.2
  (r.1, p1.headD 0, err)

/-- FrameReader.readSize. -/
def readSize {σ : Type} (R : Reader σ) (s : σ) (fuel : Nat) :
    Outcome (σ × Nat × Option Error) :=
  match binaryRead R s fuel with
  | .ret (s1, _, some e) => .ret (s1, 0, some e)
  | .ret (s1, sz, none) => .ret (s1, sz, none)
  | .panic => .panic
  | .timeout => .timeout

/-- The body loop of FrameReader.ReadFrame on the buffer p with the count c:
for { if c == s { break }; if n, err = r.r.Read(p[c:]); err != nil { break }; c += n }.
The error that ends the loop is not used after it. -/
def readLoop {σ : Type} (R : Reader σ) (sz : Nat) :
    Nat → σ → List Byte → Int → Outcome (σ × List Byte)
  | 0, s, p, c =>
    if c = (sz : Int) then .ret (s, p) else .timeout
  | fuel + 1, s, p, c =>
    if c = (sz : Int) then .ret (s, p)
    else if c < 0 ∨ (p.length : Int) < c then .panic
    else
      let r := R.Read s (p.drop c.toNat)
      let p1 := p.take c.toNat ++ overlay r.2.1 (p.drop c.toNat)
      if r.2.2.2 ≠ none then .ret (r.1, p1)
      else readLoop R sz fuel r.1 p1 (wrap64 (c + r.2.2.1))

/-- FrameReader.ReadFrame: the new stream state, the returned payload (none
for a nil slice) and the returned error. -/
def ReadFrame {σ : Type} (R : Reader σ) (s : σ) (fuel : Nat) :
    Outcome (σ × Option (List Byte) × Option Error) :=
  match readSize R s fuel with
  | .ret (s1, _, some e) => .ret (s1, none, some e)
  | .ret (s1, sz, none) =>
    match readLoop R sz fuel s1 (List.replicate sz 0) 0 with
    | .ret (s2, p) => .ret (s2, some p, none)
    | .panic => .panic
    | .timeout => .timeout
  | .panic => .panic
  | .timeout => .timeout

/-! ## Streams -/

/-- bytes.Buffer.Write on the unread contents b: every byte is appended. -/
def Buffer.Write (b p : List Byte) : List Byte × Int × Option Error :=
  (b ++ p, (p.length : Int), none)

/-- bytes.Buffer.Read on the unread contents b: an empty buffer gives io.EOF
(nil for an empty p), otherwise the front of the buffer is copied to p. -/
def Buffer.Read (b p : List Byte) : List Byte × List Byte × Int × Option Error :=
  if b = [] then
    if p.length = 0 then (b, [], 0, none) else (b, [], 0, some .EOF)
  else
    (b.drop (min p.length b.length), b.take (min p.length b.length),
      ((min p.length b.length : Nat) : Int), none)

/-- The in-memory FIFO byte buffer as a sink. -/
def bufWriter : Writer (List Byte) := ⟨Buffer.Write⟩

/-- The in-memory FIFO byte buffer as a source. -/
def bufReader : Reader (List Byte) := ⟨Buffer.Read⟩

/-- One recorded Write call: the slice handed over, the count and the error
the sink answered. -/
structure WriteCall where
  arg : List Byte
  n : Int
  err : Option Error
deriving DecidableEq, Repr

/-- A sink together with the record of the Write calls made on it. -/
def logged {σ : Type} (W : Writer σ) : Writer (σ × List WriteCall) :=
  ⟨fun s p =>
    let r := W.Write s.1 p
    ((r.1, s.2 ++ [⟨p, r.2.1, r.2.2⟩]), r.2.1, r.2.2)⟩

/-- The bytes a sink accepted in the recorded calls: of each call the first n
bytes of its slice. -/
def accepted (calls : List WriteCall) : List Byte :=
  calls.flatMap (fun c => c.arg.take c.n.toNat)

/-- A sink that takes at most k bytes of every Write call and reports the
number it took without an error. -/
def chunkWriter (k : Nat) : Writer (List Byte) :=
  ⟨fun b p => (b ++ p.take k, ((min k p.length : Nat) : Int), none)⟩

/-- A sink with room for a bounded number of bytes, the state being the bytes
stored and the room left: a Write call that fits is taken whole, one that
does not fit is taken as far as there is room and answered with the number
of bytes taken and io.ErrShortWrite. -/
def limitWriter : Writer (List Byte × Nat) :=
  ⟨fun s p =>
    if p.length ≤ s.2 then ((s.1 ++ p, s.2 - p.length), (p.length : Int), none)
    else ((s.1 ++ p.take s.2, 0), (s.2 : Int), some .ErrShortWrite)⟩

/-! ## Properties of streams and call sequences -/

/-- A sink that accepts every byte it is given without an error. -/
def AcceptsAll {σ : Type} (W : Writer σ) : Prop :=
  ∀ (s : σ) (p : List Byte), (W.Write s p).2 = ((p.length : Int), none)

/-- The wire format of one frame: the length as four big-endian bytes, then
the payload. -/
def wire (p : List Byte) : List Byte :=
  PutUint32 p.length ++ p

/-- WriteFrame called on each payload of a list in order on one sink, as in
Test_FrameReader; the results of the calls are collected. -/
def writeFrames {σ : Type} (W : Writer σ) :
    List (List Byte) → σ → Nat → Outcome (σ × List (Int × Option Error))
  | [], s, _ => .ret (s, [])
  | p :: ps, s, fuel =>
    match WriteFrame W s p fuel with
    | .ret (s1, c, e) =>
      match writeFrames W ps s1 fuel with
      | .ret (s2, rs) => .ret (s2, (c, e) :: rs)
      | .panic => .panic
      | .timeout => .timeout
    | .panic => .panic
    | .timeout => .timeout

/-- ReadFrame called k times in a row on one source, as in Test_FrameReader;
the results of the calls are collected. -/
def readFrames {σ : Type} (R : Reader σ) :
    Nat → σ → Nat → Outcome (σ × List (Option (List Byte) × Option Error))
  | 0, s, _ => .ret (s, [])
  | k + 1, s, fuel =>
    match ReadFrame R s fuel with
    | .ret (s1, p, e) =>
      match readFrames R k s1 fuel with
      | .ret (s2, rs) => .ret (s2, (p, e) :: rs)
      | .panic => .panic
      | .timeout => .timeout
    | .panic => .panic
    | .timeout => .timeout

/-- A sink that takes at least one and at most k bytes of every non-empty
Write call, never more than it is given, and reports no error. -/
def AcceptsChunks {σ : Type} (W : Writer σ) (k : Nat) : Prop :=
  ∀ (s : σ) (p : List Byte), p ≠ [] →
    (W.Write s p).2.2 = none ∧ 1 ≤ (W.Write s p).2.1
      ∧ (W.Write s p).2.1 ≤ ((min k p.length : Nat) : Int)

/-- The recorded calls are the body calls of a WriteFrame on p that start
with c bytes written: each call is made on the suffix of p not yet written,
is answered without an error with a count between 1 and k that does not
exceed the length of that suffix, and the calls end when all of p is
written. -/
def BodyCalls (k : Nat) (p : List Byte) : Nat → List WriteCall → Prop
  | c, [] => c = p.length
  | c, x :: xs =>
    x.arg = p.drop c ∧ x.err = none ∧ 1 ≤ x.n ∧ x.n ≤ ((min k (p.length - c) : Nat) : Int)
      ∧ BodyCalls k p (c + x.n.toNat) xs

/-- The result of a call on a recording sink without the record. -/
def unlogged {σ : Type} :
    Outcome ((σ × List WriteCall) × Int × Option Error) → Outcome (σ × Int × Option Error)
  | .ret r => .ret (r.1.1, r.2)
  | .panic => .panic
  | .timeout => .timeout

/-- One recorded Read call: the contents of the slice handed over, the bytes
the source stored at its front, the count and the error it answered. -/
structure ReadCall where
  req : List Byte
  out : List Byte
  n : Int
  err : Option Error
deriving DecidableEq, Repr

/-- A source together with the record of the Read calls made on it. -/
def loggedR {σ : Type} (R : Reader σ) : Reader (σ × List ReadCall) :=
  ⟨fun s p =>
    let r := R.Read s.1 p
    ((r.1, s.2 ++ [⟨p, r.2.1, r.2.2.1, r.2.2.2⟩]), r.2.1, r.2.2.1, r.2.2.2)⟩

/-- The bytes counted in the recorded Read calls: of each call answered
without an error the first n bytes of its slice as the call left it. A call
answered with an error adds nothing to the count. -/
def counted (calls : List ReadCall) : List Byte :=
  calls.flatMap (fun c => if c.err = none then (overlay c.out c.req).take c.n.toNat else [])

/-- A sink whose Write calls report a count n with 0 <= n <= len(p). -/
def SaneWrites {σ : Type} (W : Writer σ) : Prop :=
  ∀ (s : σ) (p : List Byte), 0 ≤ (W.Write s p).2.1 ∧ (W.Write s p).2.1 ≤ (p.length : Int)

/-- A source whose Read calls report a count n with 0 <= n <= len(p). -/
def SaneReads {σ : Type} (R : Reader σ) : Prop :=
  ∀ (s : σ) (p : List Byte), 0 ≤ (R.Read s p).2.2.1 ∧ (R.Read s p).2.2.1 ≤ (p.length : Int)

/-- A source that delivers the byte sequence rem(s) in chunks: while bytes
are left, every Read call on a non-empty slice is answered without an error,
delivers at least one byte and at most as many as the slice holds, and the
bytes delivered are the next bytes of the sequence. -/
def DeliversChunks {σ : Type} (R : Reader σ) (rem : σ → List Byte) : Prop :=
  ∀ (s : σ) (p : List Byte), p ≠ [] → rem s ≠ [] →
    (R.Read s p).2.2.2 = none
      ∧ 1 ≤ (R.Read s p).2.2.1
      ∧ (R.Read s p).2.2.1 ≤ ((min p.length (rem s).length : Nat) : Int)
      ∧ (R.Read s p).2.1 = (rem s).take (R.Read s p).2.2.1.toNat
      ∧ rem (R.Read s p).1 = (rem s).drop (R.Read s p).2.2.1.toNat

/-- A source over the unread bytes b that delivers at most k bytes a call and
answers io.EOF once b is empty. -/
def chunkReader (k : Nat) : Reader (List Byte) :=
  ⟨fun b p =>
    if b = [] then (b, [], 0, some .EOF)
    else
      (b.drop (min k (min p.length b.length)), b.take (min k (min p.length b.length)),
        ((min k (min p.length b.length) : Nat) : Int), none)⟩

/-! ## Encoding and arithmetic -/

theorem wrap64_of_range (x : Int) (h0 : -(2 ^ 63) ≤ x) (h1 : x < 2 ^ 63) : wrap64 x = x := by
  unfold wrap64
  omega

theorem PutUint32_length (v : Nat) : (PutUint32 v).length = 4 := rfl

theorem shl_lor (a b i : Nat) (h : b < 2 ^ i) : b ||| a <<< i = a * 2 ^ i + b := by
  rw [Nat.lor_comm, Nat.shiftLeft_eq, Nat.mul_comm a, Nat.mul_add_lt_is_or h]

theorem Uint32_eq (b0 b1 b2 b3 : Byte) :
    Uint32 [b0, b1, b2, b3] = b0.val * 2 ^ 24 + b1.val * 2 ^ 16 + b2.val * 2 ^ 8 + b3.val := by
  have h0 := b0.isLt
  have h1 := b1.isLt
  have h2 := b2.isLt
  have h3 := b3.isLt
  simp only [Uint32]
  rw [shl_lor b2.val b3.val 8 (by omega), shl_lor b1.val _ 16 (by omega),
    shl_lor b0.val _ 24 (by omega)]
  omega

theorem Uint32_PutUint32 (v : Nat) (h : v < 2 ^ 32) : Uint32 (PutUint32 v) = v := by
  unfold PutUint32
  rw [Uint32_eq]
  simp only [toByte, Nat.shiftRight_eq_div_pow]
  omega

/-! ## The writer on sinks that accept everything -/

theorem payloadMaxSize_eq : payloadMaxSize = 4294967295 := by decide

theorem uint32_of_le (l : Nat) (h : l ≤ payloadMaxSize) : uint32 l = l := by
  rw [payloadMaxSize_eq] at h
  unfold uint32
  omega

theorem writeLoop_done {σ : Type} (W : Writer σ) (data : List Byte) (fuel : Nat) (s : σ)
    (c : Int) (err : Option Error) (h : c = (data.length : Int)) :
    writeLoop W data fuel s c err = .ret (s, c, err) := by
  cases fuel <;> simp [writeLoop, h]

theorem writeLoop_acceptsAll {σ : Type} (W : Writer σ) (hW : AcceptsAll W) (data : List Byte)
    (hd : data.length ≤ payloadMaxSize) (fuel : Nat) (s : σ) (h : data ≠ []) :
    writeLoop W data (fuel + 1) s 0 none
      = .ret ((W.Write s data).1, (data.length : Int), none) := by
  have hlen : 0 < data.length := List.length_pos.mpr h
  have hne : ¬ ((0 : Int) = (data.length : Int)) := by omega
  have h2 := hW s data
  have hn : (W.Write s data).2.1 = (data.length : Int) := by rw [h2]
  have he : (W.Write s data).2.2 = none := by rw [h2]
  rw [payloadMaxSize_eq] at hd
  have hw : wrap64 (0 + (data.length : Int)) = (data.length : Int) := by
    rw [wrap64_of_range _ (by omega) (by omega)]
    omega
  simp only [writeLoop, hne, if_false]
  have hb : ¬ ((0 : Int) < 0 ∨ (data.length : Int) < 0) := by omega
  simp only [hb, if_false, Int.toNat_zero, List.drop_zero, he, ne_eq, not_true_eq_false, hn, hw]
  exact writeLoop_done W data fuel _ _ _ rfl

theorem WriteFrame_acceptsAll {σ : Type} (W : Writer σ) (hW : AcceptsAll W) (data : List Byte)
    (hd : data.length ≤ payloadMaxSize) (fuel : Nat) (s : σ) :
    WriteFrame W s data (fuel + 1)
      = .ret (if data = [] then (W.Write s (PutUint32 data.length)).1
              else (W.Write (W.Write s (PutUint32 data.length)).1 data).1,
            (data.length : Int), none) := by
  have hgt : ¬ (data.length > payloadMaxSize) := by omega
  have he : (W.Write s (PutUint32 data.length)).2.2 = none := by rw [hW]
  simp only [WriteFrame, hgt, if_false, binaryWrite, uint32_of_le _ hd, he]
  by_cases h : data = []
  · subst h
    simp [writeLoop]
  · rw [writeLoop_acceptsAll W hW data hd fuel _ h]
    simp [h]

/-! ## The reader on the in-memory buffer -/

theorem overlay_full (out buf : List Byte) (h : out.length = buf.length) :
    overlay out buf = out := by
  unfold overlay
  rw [← h]
  simp

theorem Buffer_Read_of_le (b p : List Byte) (h0 : 0 < p.length) (h : p.length ≤ b.length) :
    Buffer.Read b p = (b.drop p.length, b.take p.length, (p.length : Int), none) := by
  have hb : b ≠ [] := by
    intro hb
    rw [hb, List.length_nil] at h
    omega
  have hp : ¬ (p.length = 0) := by omega
  simp [Buffer.Read, hb, Nat.min_eq_left h]

theorem readAtLeastLoop_done {σ : Type} (R : Reader σ) (min : Int) (fuel : Nat) (s : σ)
    (buf : List Byte) (n : Int) (err : Option Error) (h : ¬ (n < min ∧ err = none)) :
    readAtLeastLoop R min fuel s buf n err = .ret (s, buf, n, err) := by
  cases fuel <;> simp only [readAtLeastLoop, h, if_false]

theorem readLoop_done {σ : Type} (R : Reader σ) (sz fuel : Nat) (s : σ) (p : List Byte)
    (c : Int) (h : c = (sz : Int)) : readLoop R sz fuel s p c = .ret (s, p) := by
  cases fuel <;> simp [readLoop, h]

theorem ReadFull_bufReader (b buf : List Byte) (fuel : Nat) (h0 : 0 < buf.length)
    (h : buf.length ≤ b.length) (hm : buf.length < 2 ^ 63) :
    ReadFull bufReader b buf (fuel + 1)
      = .ret (b.drop buf.length, b.take buf.length, (buf.length : Int), none) := by
  have hw : wrap64 (0 + (buf.length : Int)) = (buf.length : Int) := by
    rw [wrap64_of_range _ (by omega) (by omega)]
    omega
  have hc : ((0 : Int) < (buf.length : Int) ∧ (none : Option Error) = none) := ⟨by omega, rfl⟩
  have hb : ¬ ((0 : Int) < 0 ∨ (buf.length : Int) < 0) := by omega
  have hlt : ¬ ((buf.length : Int) < (buf.length : Int)) := by omega
  simp only [ReadFull, ReadAtLeast, hlt, if_false, readAtLeastLoop, hc, and_self, if_true, hb,
    Int.toNat_zero, List.drop_zero, List.take_zero, List.nil_append, bufReader,
    Buffer_Read_of_le b buf h0 h, hw]
  rw [readAtLeastLoop_done _ _ _ _ _ _ _ (by omega)]
  have hl : (b.take buf.length).length = buf.length := by simp [h]
  simp [overlay_full _ _ hl]

theorem readLoop_bufReader (b p : List Byte) (sz fuel : Nat) (hp : p.length = sz)
    (h : sz ≤ b.length) (hm : sz < 2 ^ 63) :
    readLoop bufReader sz (fuel + 1) b p 0 = .ret (b.drop sz, b.take sz) := by
  by_cases hz : sz = 0
  · subst hz
    have : p = [] := List.length_eq_zero.mp hp
    subst this
    simp [readLoop]
  · have hw : wrap64 (0 + (sz : Int)) = (sz : Int) := by
      rw [wrap64_of_range _ (by omega) (by omega)]
      omega
    have hne : ¬ ((0 : Int) = (sz : Int)) := by omega
    have hb : ¬ ((0 : Int) < 0 ∨ (p.length : Int) < 0) := by omega
    have hr := Buffer_Read_of_le b p (by omega) (by omega)
    rw [hp] at hr
    have hl : (b.take sz).length = p.length := by simp [h, hp]
    simp only [readLoop, hne, if_false, hb, Int.toNat_zero, List.drop_zero, List.take_zero,
      List.nil_append, bufReader, hr, ne_eq, not_true_eq_false, hw, overlay_full _ _ hl]
    exact readLoop_done _ _ _ _ _ _ rfl

theorem ReadFrame_bufReader (body rest : List Byte) (fuel : Nat) (h : body.length < 2 ^ 32) :
    ReadFrame bufReader (PutUint32 body.length ++ body ++ rest) (fuel + 1)
      = .ret (rest, some body, none) := by
  have h4 : (List.replicate 4 (0 : Byte)).length = 4 := rfl
  have hf := ReadFull_bufReader (PutUint32 body.length ++ body ++ rest) (List.replicate 4 0)
    fuel (by simp) (by simp [PutUint32_length]) (by simp)
  rw [h4] at hf
  have ht : (PutUint32 body.length ++ body ++ rest).take 4 = PutUint32 body.length := by
    rw [List.append_assoc]
    exact List.take_left' (PutUint32_length _)
  have hd : (PutUint32 body.length ++ body ++ rest).drop 4 = body ++ rest := by
    rw [List.append_assoc]
    exact List.drop_left' (PutUint32_length _)
  rw [ht, hd] at hf
  have hl := readLoop_bufReader (body ++ rest) (List.replicate body.length 0) body.length fuel
    (by simp) (by simp) (by omega)
  simp only [ReadFrame, readSize, binaryRead, hf, Uint32_PutUint32 _ h, hl]
  simp

theorem bufWriter_acceptsAll : AcceptsAll bufWriter := by
  intro s p
  rfl

theorem WriteFrame_bufWriter (b data : List Byte) (fuel : Nat)
    (hd : data.length ≤ payloadMaxSize) :
    WriteFrame bufWriter b data (fuel + 1) = .ret (b ++ wire data, (data.length : Int), none) := by
  rw [WriteFrame_acceptsAll bufWriter bufWriter_acceptsAll data hd fuel b]
  by_cases h : data = []
  · subst h
    simp [bufWriter, Buffer.Write, wire]
  · simp [h, bufWriter, Buffer.Write, wire]

theorem ReadFrame_wire (data rest : List Byte) (fuel : Nat) (hd : data.length ≤ payloadMaxSize) :
    ReadFrame bufReader (wire data ++ rest) (fuel + 1) = .ret (rest, some data, none) := by
  rw [payloadMaxSize_eq] at hd
  exact ReadFrame_bufReader data rest fuel (by omega)

theorem writeFrames_bufWriter (ps : List (List Byte)) (fuel : Nat)
    (h : ∀ p ∈ ps, p.length ≤ payloadMaxSize) (b : List Byte) :
    writeFrames bufWriter ps b (fuel + 1)
      = .ret (b ++ ps.flatMap wire, ps.map (fun p => ((p.length : Int), none))) := by
  induction ps generalizing b with
  | nil => simp [writeFrames]
  | cons p ps ih =>
    have hp : p.length ≤ payloadMaxSize := h p (List.mem_cons_self _ _)
    have hps : ∀ q ∈ ps, q.length ≤ payloadMaxSize := fun q hq => h q (List.mem_cons_of_mem _ hq)
    simp only [writeFrames, WriteFrame_bufWriter b p fuel hp, ih hps]
    simp [List.flatMap_cons]

theorem readFrames_bufReader (ps : List (List Byte)) (fuel : Nat)
    (h : ∀ p ∈ ps, p.length ≤ payloadMaxSize) (rest : List Byte) :
    readFrames bufReader ps.length (ps.flatMap wire ++ rest) (fuel + 1)
      = .ret (rest, ps.map (fun p => (some p, none))) := by
  induction ps with
  | nil => simp [readFrames]
  | cons p ps ih =>
    have hp : p.length ≤ payloadMaxSize := h p (List.mem_cons_self _ _)
    have hps : ∀ q ∈ ps, q.length ≤ payloadMaxSize := fun q hq => h q (List.mem_cons_of_mem _ hq)
    have e : (p :: ps).flatMap wire ++ rest = wire p ++ (ps.flatMap wire ++ rest) := by
      simp [List.flatMap_cons]
    simp only [List.length_cons, readFrames, e, ReadFrame_wire p _ fuel hp, ih hps]
    simp

/-! ## The length read -/

theorem readAtLeastLoop_exit {σ : Type} (R : Reader σ) (min : Int) (fuel : Nat) :
    ∀ (s : σ) (buf : List Byte) (n : Int) (err : Option Error) (s1 : σ) (buf1 : List Byte)
      (n1 : Int) (err1 : Option Error),
      readAtLeastLoop R min fuel s buf n err = .ret (s1, buf1, n1, err1) →
      ¬ (n1 < min ∧ err1 = none) := by
  induction fuel with
  | zero =>
    intro s buf n err s1 buf1 n1 err1 h
    by_cases hc : n < min ∧ err = none
    · simp [readAtLeastLoop, hc] at h
    · simp only [readAtLeastLoop, hc, if_false, Outcome.ret.injEq, Prod.mk.injEq] at h
      obtain ⟨-, -, rfl, rfl⟩ := h
      exact hc
  | succ fuel ih =>
    intro s buf n err s1 buf1 n1 err1 h
    by_cases hc : n < min ∧ err = none
    · by_cases hb : n < 0 ∨ (buf.length : Int) < n
      · simp [readAtLeastLoop, hc, hb] at h
      · simp only [readAtLeastLoop, hc, and_self, if_true, hb, if_false] at h
        exact ih _ _ _ _ _ _ _ _ h
    · simp only [readAtLeastLoop, hc, if_false, Outcome.ret.injEq, Prod.mk.injEq] at h
      obtain ⟨-, -, rfl, rfl⟩ := h
      exact hc

theorem ReadFull_short {σ : Type} (R : Reader σ) (s : σ) (buf : List Byte) (fuel : Nat)
    (s1 : σ) (buf1 : List Byte) (n : Int) (err : Option Error)
    (h : ReadFull R s buf fuel = .ret (s1, buf1, n, err)) (hn : n < (buf.length : Int)) :
    err ≠ none := by
  have hlt : ¬ ((buf.length : Int) < (buf.length : Int)) := by omega
  simp only [ReadFull, ReadAtLeast, hlt, if_false] at h
  cases hl : readAtLeastLoop R (buf.length : Int) fuel s buf 0 none with
  | ret a =>
    obtain ⟨s2, buf2, n2, err2⟩ := a
    have hx := readAtLeastLoop_exit R _ fuel _ _ _ _ _ _ _ _ hl
    rw [hl] at h
    simp only at h
    by_cases hge : n2 ≥ (buf.length : Int)
    · simp only [hge, if_true, Outcome.ret.injEq, Prod.mk.injEq] at h
      omega
    · have hne : err2 ≠ none := fun he => hx ⟨by omega, he⟩
      simp only [hge, if_false] at h
      by_cases he : 0 < n2 ∧ err2 = some Error.EOF
      · simp only [he, and_self, if_true, Outcome.ret.injEq, Prod.mk.injEq] at h
        obtain ⟨-, -, -, rfl⟩ := h
        simp
      · simp only [he, if_false, Outcome.ret.injEq, Prod.mk.injEq] at h
        obtain ⟨-, -, -, rfl⟩ := h
        exact hne
  | panic => rw [hl] at h; simp at h
  | timeout => rw [hl] at h; simp at h

theorem ReadFrame_of_ReadFull_error {σ : Type} (R : Reader σ) (s : σ) (fuel : Nat)
    (s1 : σ) (buf1 : List Byte) (n : Int) (e : Error)
    (h : ReadFull R s (List.replicate 4 0) fuel = .ret (s1, buf1, n, some e)) :
    ReadFrame R s fuel = .ret (s1, none, some e) := by
  simp only [ReadFrame, readSize, binaryRead, h]

theorem wrap64_natCast (k : Nat) (h : k < 2 ^ 63) : wrap64 (k : Int) = (k : Int) :=
  wrap64_of_range _ (by omega) (by omega)

theorem ReadFull_bufReader_empty (buf : List Byte) (fuel : Nat) (h0 : 0 < buf.length) :
    ReadFull bufReader [] buf (fuel + 1) = .ret ([], buf, 0, some .EOF) := by
  have hc : ((0 : Int) < (buf.length : Int) ∧ (none : Option Error) = none) := ⟨by omega, rfl⟩
  have hb : ¬ ((0 : Int) < 0 ∨ (buf.length : Int) < 0) := by omega
  have hlt : ¬ ((buf.length : Int) < (buf.length : Int)) := by omega
  have hp : ¬ (buf.length = 0) := by omega
  have hw : wrap64 (0 + 0) = 0 := by decide
  have hge : ¬ ((0 : Int) ≥ (buf.length : Int)) := by omega
  simp only [ReadFull, ReadAtLeast, hlt, if_false, readAtLeastLoop, hc, and_self, if_true, hb,
    Int.toNat_zero, List.drop_zero, List.take_zero, List.nil_append, bufReader, Buffer.Read,
    hp, hw]
  rw [readAtLeastLoop_done _ _ _ _ _ _ _ (by simp)]
  simp [overlay, hge]

theorem ReadFull_bufReader_short (b buf : List Byte) (fuel : Nat) (h0 : 0 < b.length)
    (h : b.length < buf.length) (hm : buf.length < 2 ^ 63) :
    ReadFull bufReader b buf (fuel + 2)
      = .ret ([], b ++ buf.drop b.length, (b.length : Int), some .ErrUnexpectedEOF) := by
  have hc : ((0 : Int) < (buf.length : Int) ∧ (none : Option Error) = none) := ⟨by omega, rfl⟩
  have hb : ¬ ((0 : Int) < 0 ∨ (buf.length : Int) < 0) := by omega
  have hlt : ¬ ((buf.length : Int) < (buf.length : Int)) := by omega
  have hne : b ≠ [] := List.length_pos.mp h0
  have hmin : min buf.length b.length = b.length := Nat.min_eq_right (by omega)
  have hw : wrap64 (0 + (b.length : Int)) = (b.length : Int) := by
    rw [Int.zero_add]
    exact wrap64_natCast _ (by omega)
  have hw2 : wrap64 ((b.length : Int) + 0) = (b.length : Int) := by
    rw [Int.add_zero]
    exact wrap64_natCast _ (by omega)
  have hc2 : ((b.length : Int) < (buf.length : Int) ∧ (none : Option Error) = none) :=
    ⟨by omega, rfl⟩
  have hov : overlay b buf = b ++ buf.drop b.length := by
    unfold overlay
    rw [List.take_of_length_le]
    simp
    omega
  have hl : (b ++ buf.drop b.length).length = buf.length := by
    simp
    omega
  have hb2 : ¬ ((b.length : Int) < 0 ∨ ((b ++ buf.drop b.length).length : Int) < (b.length : Int)) := by
    rw [hl]
    omega
  have hd : ¬ ((List.drop b.length (b ++ buf.drop b.length)).length = 0) := by
    simp
    omega
  have hge : ¬ ((b.length : Int) ≥ (buf.length : Int)) := by omega
  have hpos : (0 : Int) < (b.length : Int) := by omega
  simp only [ReadFull, ReadAtLeast, hlt, if_false, readAtLeastLoop, hc, and_self, if_true, hb,
    Int.toNat_zero, List.drop_zero, List.take_zero, List.nil_append, bufReader, Buffer.Read,
    hne, hmin, List.drop_length, List.take_length, hw, hov, hc2, hb2, Int.toNat_ofNat, hd, hw2]
  rw [readAtLeastLoop_done _ _ _ _ _ _ _ (by simp)]
  simp [overlay, hge, hpos]

theorem ReadFrame_bufReader_short (b : List Byte) (fuel : Nat) (hb : b.length < 4) :
    ReadFrame bufReader b (fuel + 2)
      = .ret ([], none, some (if b = [] then Error.EOF else Error.ErrUnexpectedEOF)) := by
  by_cases h : b = []
  · subst h
    exact ReadFrame_of_ReadFull_error _ _ _ _ _ _ _
      (ReadFull_bufReader_empty (List.replicate 4 0) (fuel + 1) (by simp))
  · have h0 : 0 < b.length := List.length_pos.mpr h
    rw [if_neg h]
    exact ReadFrame_of_ReadFull_error _ _ _ _ _ _ _
      (ReadFull_bufReader_short b (List.replicate 4 0) fuel h0 (by simpa using hb) (by simp))

/-! ## The writer on recording sinks and on sinks that take a few bytes a call -/

theorem logged_Write {σ : Type} (W : Writer σ) (s : σ) (log : List WriteCall) (p : List Byte) :
    (logged W).Write (s, log) p
      = (((W.Write s p).1, log ++ [⟨p, (W.Write s p).2.1, (W.Write s p).2.2⟩]),
          (W.Write s p).2.1, (W.Write s p).2.2) := rfl

theorem writeLoop_unlogged {σ : Type} (W : Writer σ) (data : List Byte) (fuel : Nat) :
    ∀ (s : σ) (log : List WriteCall) (c : Int) (err : Option Error),
      unlogged (writeLoop (logged W) data fuel (s, log) c err) = writeLoop W data fuel s c err := by
  induction fuel with
  | zero =>
    intro s log c err
    by_cases hc : c = (data.length : Int)
    · simp [writeLoop, hc, unlogged]
    · simp [writeLoop, hc, unlogged]
  | succ fuel ih =>
    intro s log c err
    by_cases hc : c = (data.length : Int)
    · simp [writeLoop, hc, unlogged]
    · by_cases hb : c < 0 ∨ (data.length : Int) < c
      · simp [writeLoop, hc, hb, unlogged]
      · by_cases he : (W.Write s (data.drop c.toNat)).2.2 = none
        · simp only [writeLoop, hc, if_false, hb, logged_Write, he, ne_eq, not_true_eq_false]
          exact ih _ _ _ _
        · simp only [writeLoop, hc, if_false, hb, logged_Write, he, ne_eq, not_false_eq_true,
            if_true, unlogged]

theorem WriteFrame_unlogged {σ : Type} (W : Writer σ) (s : σ) (log : List WriteCall)
    (data : List Byte) (fuel : Nat) :
    unlogged (WriteFrame (logged W) (s, log) data fuel) = WriteFrame W s data fuel := by
  by_cases hgt : data.length > payloadMaxSize
  · simp [WriteFrame, hgt, unlogged]
  · cases he : (W.Write s (PutUint32 (uint32 data.length))).2.2 with
    | none =>
      simp only [WriteFrame, hgt, if_false, binaryWrite, logged_Write, he]
      exact writeLoop_unlogged W data fuel _ _ _ _
    | some e =>
      simp only [WriteFrame, hgt, if_false, binaryWrite, logged_Write, he, unlogged]

theorem writeLoop_chunks {σ : Type} (W : Writer σ) (k : Nat) (hW : AcceptsChunks W k)
    (p : List Byte) (hp : p.length ≤ payloadMaxSize) (fuel : Nat) :
    ∀ (c : Nat) (s : σ) (log : List WriteCall), c ≤ p.length → p.length - c ≤ fuel →
      ∃ s1 calls, writeLoop (logged W) p fuel (s, log) (c : Int) none
          = .ret ((s1, log ++ calls), (p.length : Int), none)
        ∧ BodyCalls k p c calls := by
  rw [payloadMaxSize_eq] at hp
  induction fuel with
  | zero =>
    intro c s log hc hf
    have hcl : c = p.length := by omega
    refine ⟨s, [], ?_, hcl⟩
    rw [writeLoop_done _ _ _ _ _ _ (by rw [hcl]), hcl]
    simp
  | succ fuel ih =>
    intro c s log hc hf
    by_cases hcl : c = p.length
    · refine ⟨s, [], ?_, hcl⟩
      rw [writeLoop_done _ _ _ _ _ _ (by rw [hcl]), hcl]
      simp
    · have hne : p.drop c ≠ [] := by
        intro h
        have := congrArg List.length h
        simp at this
        omega
      have hW1 := hW s (p.drop c) hne
      rcases hr0 : W.Write s (p.drop c) with ⟨s2, n, e⟩
      rw [hr0] at hW1
      obtain ⟨he, h1, h2⟩ := hW1
      simp only at he h1 h2
      subst he
      have hlen : (p.drop c).length = p.length - c := by simp
      rw [hlen] at h2
      have hmin : min k (p.length - c) ≤ p.length - c := Nat.min_le_right _ _
      have hci : ¬ ((c : Int) = (p.length : Int)) := by omega
      have hb : ¬ ((c : Int) < 0 ∨ (p.length : Int) < (c : Int)) := by omega
      have hw : wrap64 ((c : Int) + n) = ((c + n.toNat : Nat) : Int) := by
        rw [wrap64_of_range _ (by omega) (by omega)]
        omega
      obtain ⟨s1, calls, hr, hbc⟩ := ih (c + n.toNat) s2 (log ++ [⟨p.drop c, n, none⟩])
        (by omega) (by omega)
      refine ⟨s1, ⟨p.drop c, n, none⟩ :: calls, ?_, rfl, rfl, h1, h2, hbc⟩
      simp only [writeLoop, hci, if_false, hb, Int.toNat_ofNat, logged_Write, hr0, ne_eq,
        not_true_eq_false, hw]
      rw [hr]
      simp

theorem accepted_cons (x : WriteCall) (xs : List WriteCall) :
    accepted (x :: xs) = x.arg.take x.n.toNat ++ accepted xs := by
  simp [accepted, List.flatMap_cons]

theorem BodyCalls_accepted (k : Nat) (p : List Byte) (calls : List WriteCall) :
    ∀ c : Nat, BodyCalls k p c calls → accepted calls = p.drop c := by
  induction calls with
  | nil =>
    intro c h
    have hc : c = p.length := h
    simp [accepted, hc]
  | cons x xs ih =>
    intro c h
    obtain ⟨ha, -, -, -, hr⟩ := h
    rw [accepted_cons, ih _ hr, ha, ← List.drop_drop, List.take_append_drop]

theorem BodyCalls_length (k : Nat) (p : List Byte) (calls : List WriteCall) :
    ∀ c : Nat, BodyCalls k p c calls →
      calls.length + c ≤ p.length ∧ (k < p.length - c → 2 ≤ calls.length) := by
  induction calls with
  | nil =>
    intro c h
    have hc : c = p.length := h
    subst hc
    simp
  | cons x xs ih =>
    intro c h
    obtain ⟨-, -, h1, h2, hr⟩ := h
    obtain ⟨hl, -⟩ := ih _ hr
    have hk : min k (p.length - c) ≤ k := Nat.min_le_left _ _
    refine ⟨by simp only [List.length_cons]; omega, ?_⟩
    intro hlt
    cases xs with
    | nil =>
      have hc : c + x.n.toNat = p.length := hr
      omega
    | cons y ys => simp

theorem BodyCalls_get (k : Nat) (p : List Byte) (calls : List WriteCall) :
    ∀ (c i : Nat) (hi : i < calls.length), BodyCalls k p c calls →
      (calls.get ⟨i, hi⟩).arg = p.drop (c + (accepted (calls.take i)).length)
        ∧ (calls.get ⟨i, hi⟩).err = none
        ∧ 1 ≤ (calls.get ⟨i, hi⟩).n ∧ (calls.get ⟨i, hi⟩).n ≤ (k : Int) := by
  induction calls with
  | nil =>
    intro c i hi
    simp at hi
  | cons x xs ih =>
    intro c i hi h
    obtain ⟨ha, he, h1, h2, hr⟩ := h
    have hk : min k (p.length - c) ≤ k := Nat.min_le_left _ _
    have hm : min k (p.length - c) ≤ p.length - c := Nat.min_le_right _ _
    cases i with
    | zero =>
      change x.arg = _ ∧ x.err = none ∧ 1 ≤ x.n ∧ x.n ≤ (k : Int)
      refine ⟨?_, he, h1, by omega⟩
      simp [accepted, ha]
    | succ j =>
      have hj : j < xs.length := by simpa using hi
      obtain ⟨ga, ge, g1, g2⟩ := ih (c + x.n.toNat) j hj hr
      refine ⟨?_, ge, g1, g2⟩
      have hlen : (x.arg.take x.n.toNat).length = x.n.toNat := by
        rw [ha, List.length_take, List.length_drop]
        omega
      have e : (accepted ((x :: xs).take (j + 1))).length
          = x.n.toNat + (accepted (xs.take j)).length := by
        rw [List.take_succ_cons, accepted_cons, List.length_append, hlen]
      rw [e, ← Nat.add_assoc]
      exact ga

theorem chunkWriter_acceptsChunks (k : Nat) (hk : 1 ≤ k) : AcceptsChunks (chunkWriter k) k := by
  intro s p hp
  have hl : 0 < p.length := List.length_pos.mpr hp
  refine ⟨rfl, ?_, Int.le_refl _⟩
  show (1 : Int) ≤ ((min k p.length : Nat) : Int)
  have : 1 ≤ min k p.length := Nat.le_min.mpr ⟨hk, hl⟩
  omega

theorem chunkWriter_Write (k : Nat) (s p : List Byte) :
    (chunkWriter k).Write s p = (s ++ p.take k, ((min k p.length : Nat) : Int), none) := rfl

theorem writeLoop_chunkWriter_zero (fuel : Nat) :
    ∀ s : List Byte, writeLoop (chunkWriter 0) [1] fuel s 0 none = .timeout := by
  have hw : wrap64 (0 + 0) = 0 := by decide
  induction fuel with
  | zero =>
    intro s
    simp [writeLoop]
  | succ fuel ih =>
    intro s
    have hne : ¬ ((0 : Int) = (([1] : List Byte).length : Int)) := by decide
    have hb : ¬ ((0 : Int) < 0 ∨ ((([1] : List Byte).length : Nat) : Int) < 0) := by decide
    simp only [writeLoop, hne, if_false, hb, chunkWriter_Write, Nat.zero_min, Nat.cast_zero, hw,
      ne_eq, not_true_eq_false]
    exact ih _

/-! ## Lengths, bounds and the absence of panics -/

theorem overlay_length (out buf : List Byte) : (overlay out buf).length = buf.length := by
  unfold overlay
  rw [List.length_take, List.length_append, List.length_drop]
  omega

theorem overlay_short (out buf : List Byte) (h : out.length ≤ buf.length) :
    overlay out buf = out ++ buf.drop out.length := by
  unfold overlay
  rw [List.take_of_length_le]
  rw [List.length_append, List.length_drop]
  omega

theorem Uint32_lt (bs : List Byte) : Uint32 bs < 2 ^ 32 := by
  match bs with
  | [] => simp [Uint32]
  | [_] => simp [Uint32]
  | [_, _] => simp [Uint32]
  | [_, _, _] => simp [Uint32]
  | [b0, b1, b2, b3] =>
    have h0 := b0.isLt
    have h1 := b1.isLt
    have h2 := b2.isLt
    have h3 := b3.isLt
    rw [Uint32_eq]
    omega
  | _ :: _ :: _ :: _ :: _ :: _ => simp [Uint32]

theorem PutUint32_Uint32 (b0 b1 b2 b3 : Byte) :
    PutUint32 (Uint32 [b0, b1, b2, b3]) = [b0, b1, b2, b3] := by
  have h0 := b0.isLt
  have h1 := b1.isLt
  have h2 := b2.isLt
  have h3 := b3.isLt
  rw [Uint32_eq]
  simp only [PutUint32, toByte, Nat.shiftRight_eq_div_pow]
  refine List.cons_eq_cons.mpr ⟨Fin.ext ?_, List.cons_eq_cons.mpr ⟨Fin.ext ?_,
    List.cons_eq_cons.mpr ⟨Fin.ext ?_, List.cons_eq_cons.mpr ⟨Fin.ext ?_, rfl⟩⟩⟩⟩ <;>
  · simp only
    omega

theorem readLoop_length {σ : Type} (R : Reader σ) (sz fuel : Nat) :
    ∀ (s : σ) (p : List Byte) (c : Int) (s2 : σ) (p2 : List Byte),
      readLoop R sz fuel s p c = .ret (s2, p2) → p2.length = p.length := by
  induction fuel with
  | zero =>
    intro s p c s2 p2 h
    by_cases hc : c = (sz : Int)
    · simp only [readLoop, hc, if_true, Outcome.ret.injEq, Prod.mk.injEq] at h
      rw [← h.2]
    · simp [readLoop, hc] at h
  | succ fuel ih =>
    intro s p c s2 p2 h
    by_cases hc : c = (sz : Int)
    · simp only [readLoop, hc, if_true, Outcome.ret.injEq, Prod.mk.injEq] at h
      rw [← h.2]
    · by_cases hb : c < 0 ∨ (p.length : Int) < c
      · simp [readLoop, hc, hb] at h
      · have hl : (p.take c.toNat ++ overlay (R.Read s (p.drop c.toNat)).2.1
            (p.drop c.toNat)).length = p.length := by
          rw [List.length_append, overlay_length, List.length_take, List.length_drop]
          omega
        by_cases he : (R.Read s (p.drop c.toNat)).2.2.2 = none
        · simp only [readLoop, hc, if_false, hb, he, ne_eq, not_true_eq_false] at h
          rw [ih _ _ _ _ _ h, hl]
        · simp only [readLoop, hc, if_false, hb, he, ne_eq, not_false_eq_true, if_true,
            Outcome.ret.injEq, Prod.mk.injEq] at h
          rw [← h.2, hl]

theorem writeLoop_nil_error {σ : Type} (W : Writer σ) (data : List Byte) (fuel : Nat) :
    ∀ (s : σ) (c : Int) (err : Option Error) (s1 : σ) (c1 : Int),
      writeLoop W data fuel s c err = .ret (s1, c1, none) → c1 = (data.length : Int) := by
  induction fuel with
  | zero =>
    intro s c err s1 c1 h
    by_cases hc : c = (data.length : Int)
    · simp only [writeLoop, hc, if_true, Outcome.ret.injEq, Prod.mk.injEq] at h
      exact h.2.1.symm
    · simp [writeLoop, hc] at h
  | succ fuel ih =>
    intro s c err s1 c1 h
    by_cases hc : c = (data.length : Int)
    · simp only [writeLoop, hc, if_true, Outcome.ret.injEq, Prod.mk.injEq] at h
      exact h.2.1.symm
    · by_cases hb : c < 0 ∨ (data.length : Int) < c
      · simp [writeLoop, hc, hb] at h
      · by_cases he : (W.Write s (data.drop c.toNat)).2.2 = none
        · simp only [writeLoop, hc, if_false, hb, he, ne_eq, not_true_eq_false] at h
          exact ih _ _ _ _ _ h
        · simp [writeLoop, hc, hb, he] at h

theorem writeLoop_sane {σ : Type} (W : Writer σ) (hW : SaneWrites W) (data : List Byte)
    (hd : data.length ≤ payloadMaxSize) (fuel : Nat) :
    ∀ (s : σ) (c : Int) (err : Option Error), 0 ≤ c → c ≤ (data.length : Int) →
      writeLoop W data fuel s c err ≠ .panic
        ∧ ∀ (s1 : σ) (c1 : Int) (e : Option Error),
            writeLoop W data fuel s c err = .ret (s1, c1, e) →
            0 ≤ c1 ∧ c1 ≤ (data.length : Int) := by
  rw [payloadMaxSize_eq] at hd
  induction fuel with
  | zero =>
    intro s c err h0 h1
    by_cases hc : c = (data.length : Int)
    · simp only [writeLoop, hc, if_true]
      refine ⟨by simp, ?_⟩
      intro s1 c1 e h
      simp only [Outcome.ret.injEq, Prod.mk.injEq] at h
      omega
    · simp [writeLoop, hc]
  | succ fuel ih =>
    intro s c err h0 h1
    by_cases hc : c = (data.length : Int)
    · simp only [writeLoop, hc, if_true]
      refine ⟨by simp, ?_⟩
      intro s1 c1 e h
      simp only [Outcome.ret.injEq, Prod.mk.injEq] at h
      omega
    · have hb : ¬ (c < 0 ∨ (data.length : Int) < c) := by omega
      obtain ⟨hn0, hn1⟩ := hW s (data.drop c.toNat)
      rw [List.length_drop] at hn1
      by_cases he : (W.Write s (data.drop c.toNat)).2.2 = none
      · have hw : wrap64 (c + (W.Write s (data.drop c.toNat)).2.1)
            = c + (W.Write s (data.drop c.toNat)).2.1 :=
          wrap64_of_range _ (by omega) (by omega)
        simp only [writeLoop, hc, if_false, hb, he, ne_eq, not_true_eq_false, hw]
        exact ih _ _ _ (by omega) (by omega)
      · simp only [writeLoop, hc, if_false, hb, he, ne_eq, not_false_eq_true, if_true]
        refine ⟨by simp, ?_⟩
        intro s1 c1 e h
        simp only [Outcome.ret.injEq, Prod.mk.injEq] at h
        omega

theorem readAtLeastLoop_sane {σ : Type} (R : Reader σ) (hR : SaneReads R) (min : Int)
    (fuel : Nat) :
    ∀ (s : σ) (buf : List Byte) (n : Int) (err : Option Error), 0 ≤ n →
      n ≤ (buf.length : Int) → buf.length < 2 ^ 32 →
      readAtLeastLoop R min fuel s buf n err ≠ .panic := by
  induction fuel with
  | zero =>
    intro s buf n err h0 h1 hl
    by_cases hc : n < min ∧ err = none
    · simp [readAtLeastLoop, hc]
    · simp [readAtLeastLoop, hc]
  | succ fuel ih =>
    intro s buf n err h0 h1 hl
    by_cases hc : n < min ∧ err = none
    · have hb : ¬ (n < 0 ∨ (buf.length : Int) < n) := by omega
      obtain ⟨hn0, hn1⟩ := hR s (buf.drop n.toNat)
      rw [List.length_drop] at hn1
      have hw : wrap64 (n + (R.Read s (buf.drop n.toNat)).2.2.1)
          = n + (R.Read s (buf.drop n.toNat)).2.2.1 :=
        wrap64_of_range _ (by omega) (by omega)
      have hlen : (buf.take n.toNat ++ overlay (R.Read s (buf.drop n.toNat)).2.1
          (buf.drop n.toNat)).length = buf.length := by
        rw [List.length_append, overlay_length, List.length_take, List.length_drop]
        omega
      simp only [readAtLeastLoop, hc, and_self, if_true, hb, if_false, hw]
      exact ih _ _ _ _ (by omega) (by rw [hlen]; omega) (by rw [hlen]; exact hl)
    · simp [readAtLeastLoop, hc]

theorem readLoop_sane {σ : Type} (R : Reader σ) (hR : SaneReads R) (sz fuel : Nat) :
    ∀ (s : σ) (p : List Byte) (c : Int), 0 ≤ c → c ≤ (p.length : Int) → p.length < 2 ^ 32 →
      readLoop R sz fuel s p c ≠ .panic := by
  induction fuel with
  | zero =>
    intro s p c h0 h1 hl
    by_cases hc : c = (sz : Int)
    · simp [readLoop, hc]
    · simp [readLoop, hc]
  | succ fuel ih =>
    intro s p c h0 h1 hl
    by_cases hc : c = (sz : Int)
    · simp [readLoop, hc]
    · have hb : ¬ (c < 0 ∨ (p.length : Int) < c) := by omega
      obtain ⟨hn0, hn1⟩ := hR s (p.drop c.toNat)
      rw [List.length_drop] at hn1
      have hw : wrap64 (c + (R.Read s (p.drop c.toNat)).2.2.1)
          = c + (R.Read s (p.drop c.toNat)).2.2.1 :=
        wrap64_of_range _ (by omega) (by omega)
      have hlen : (p.take c.toNat ++ overlay (R.Read s (p.drop c.toNat)).2.1
          (p.drop c.toNat)).length = p.length := by
        rw [List.length_append, overlay_length, List.length_take, List.length_drop]
        omega
      by_cases he : (R.Read s (p.drop c.toNat)).2.2.2 = none
      · simp only [readLoop, hc, if_false, hb, he, ne_eq, not_true_eq_false, hw]
        exact ih _ _ _ (by omega) (by rw [hlen]; omega) (by rw [hlen]; exact hl)
      · simp [readLoop, hc, hb, he]

theorem ReadFrame_sane {σ : Type} (R : Reader σ) (hR : SaneReads R) (s : σ) (fuel : Nat) :
    ReadFrame R s fuel ≠ .panic := by
  have h4 : ¬ (((List.replicate 4 (0 : Byte)).length : Int)
      < ((List.replicate 4 (0 : Byte)).length : Int)) := by omega
  have hfull : ∀ a, ReadFull R s (List.replicate 4 0) fuel = a → a ≠ .panic := by
    intro a ha
    simp only [ReadFull, ReadAtLeast, h4, if_false] at ha
    have hnp := readAtLeastLoop_sane R hR ((List.replicate 4 (0 : Byte)).length : Int) fuel s
      (List.replicate 4 0) 0 none (by omega) (by simp) (by simp)
    cases hl : readAtLeastLoop R ((List.replicate 4 (0 : Byte)).length : Int) fuel s
        (List.replicate 4 0) 0 none with
    | ret r =>
      obtain ⟨s1, buf1, n, err⟩ := r
      rw [hl] at ha
      rw [← ha]
      simp only
      split_ifs <;> simp
    | panic => exact absurd hl hnp
    | timeout =>
      rw [hl] at ha
      rw [← ha]
      simp
  cases hf : ReadFull R s (List.replicate 4 0) fuel with
  | ret r =>
    obtain ⟨s1, bs, n, err⟩ := r
    cases err with
    | none =>
      simp only [ReadFrame, readSize, binaryRead, hf]
      have hlt := Uint32_lt bs
      have hnp := readLoop_sane R hR (Uint32 bs) fuel s1 (List.replicate (Uint32 bs) 0) 0
        (by omega) (by omega) (by simpa using hlt)
      cases hl : readLoop R (Uint32 bs) fuel s1 (List.replicate (Uint32 bs) 0) 0 with
      | ret b => simp
      | panic => exact absurd hl hnp
      | timeout => simp
    | some e =>
      simp only [ReadFrame, readSize, binaryRead, hf]
      simp
  | panic => exact absurd rfl (hfull _ hf)
  | timeout =>
    simp only [ReadFrame, readSize, binaryRead, hf]
    simp

theorem bufWriter_sane : SaneWrites bufWriter := by
  intro s p
  show (0 : Int) ≤ (p.length : Int) ∧ (p.length : Int) ≤ (p.length : Int)
  omega

theorem bufReader_sane : SaneReads bufReader := by
  intro s p
  simp only [bufReader, Buffer.Read]
  split_ifs <;> simp

/-! ## The body loop of the reader on recording sources -/

theorem loggedR_Read {σ : Type} (R : Reader σ) (s : σ) (log : List ReadCall) (p : List Byte) :
    (loggedR R).Read (s, log) p
      = (((R.Read s p).1,
            log ++ [⟨p, (R.Read s p).2.1, (R.Read s p).2.2.1, (R.Read s p).2.2.2⟩]),
          (R.Read s p).2.1, (R.Read s p).2.2.1, (R.Read s p).2.2.2) := rfl

theorem counted_cons (x : ReadCall) (xs : List ReadCall) :
    counted (x :: xs)
      = (if x.err = none then (overlay x.out x.req).take x.n.toNat else []) ++ counted xs := by
  simp [counted, List.flatMap_cons]

theorem readLoop_counted {σ : Type} (R : Reader σ) (hR : SaneReads R) (sz fuel : Nat) :
    ∀ (s : σ) (log : List ReadCall) (p : List Byte) (c : Nat) (s2 : σ) (log2 : List ReadCall)
      (p2 : List Byte), c ≤ p.length → p.length < 2 ^ 32 →
      readLoop (loggedR R) sz fuel (s, log) p (c : Int) = .ret ((s2, log2), p2) →
      ∃ calls, log2 = log ++ calls
        ∧ p2.take (c + (counted calls).length) = p.take c ++ counted calls := by
  induction fuel with
  | zero =>
    intro s log p c s2 log2 p2 hc hl h
    by_cases hcs : (c : Int) = (sz : Int)
    · simp only [readLoop, hcs, if_true, Outcome.ret.injEq, Prod.mk.injEq] at h
      obtain ⟨⟨-, rfl⟩, rfl⟩ := h
      exact ⟨[], by simp, by simp [counted]⟩
    · simp [readLoop, hcs] at h
  | succ fuel ih =>
    intro s log p c s2 log2 p2 hc hl h
    by_cases hcs : (c : Int) = (sz : Int)
    · simp only [readLoop, hcs, if_true, Outcome.ret.injEq, Prod.mk.injEq] at h
      obtain ⟨⟨-, rfl⟩, rfl⟩ := h
      exact ⟨[], by simp, by simp [counted]⟩
    · have hb : ¬ ((c : Int) < 0 ∨ (p.length : Int) < (c : Int)) := by omega
      have hS := hR s (p.drop c)
      rcases hr0 : R.Read s (p.drop c) with ⟨s3, out, n, e⟩
      rw [hr0] at hS
      obtain ⟨hn0, hn1⟩ := hS
      simp only [List.length_drop] at hn0 hn1
      have htc : (p.take c).length = c := by
        rw [List.length_take]
        omega
      have hov : (overlay out (p.drop c)).length = p.length - c := by
        rw [overlay_length, List.length_drop]
      cases e with
      | some e1 =>
        simp only [readLoop, hcs, if_false, hb, Int.toNat_ofNat, loggedR_Read, hr0, ne_eq,
          not_false_eq_true, if_true, Outcome.ret.injEq, Prod.mk.injEq, reduceCtorEq] at h
        obtain ⟨⟨-, rfl⟩, rfl⟩ := h
        refine ⟨[⟨p.drop c, out, n, some e1⟩], rfl, ?_⟩
        simp only [counted, List.flatMap_cons, List.flatMap_nil, reduceCtorEq, if_false,
          List.append_nil, List.length_nil, Nat.add_zero]
        rw [List.take_append_of_le_length (by omega), List.take_take, Nat.min_self]
      | none =>
        have hw : wrap64 ((c : Int) + n) = ((c + n.toNat : Nat) : Int) := by
          rw [wrap64_of_range _ (by omega) (by omega)]
          omega
        simp only [readLoop, hcs, if_false, hb, Int.toNat_ofNat, loggedR_Read, hr0, ne_eq,
          not_true_eq_false, hw] at h
        have hlen1 : (p.take c ++ overlay out (p.drop c)).length = p.length := by
          rw [List.length_append, htc, hov]
          omega
        obtain ⟨calls, hlog, htake⟩ := ih s3 (log ++ [⟨p.drop c, out, n, none⟩])
          (p.take c ++ overlay out (p.drop c)) (c + n.toNat) s2 log2 p2
          (by rw [hlen1]; omega) (by rw [hlen1]; exact hl) h
        refine ⟨⟨p.drop c, out, n, none⟩ :: calls, by rw [hlog]; simp, ?_⟩
        have hcl : ((overlay out (p.drop c)).take n.toNat).length = n.toNat := by
          rw [List.length_take, hov]
          omega
        rw [counted_cons]
        simp only [if_true, List.length_append, hcl]
        rw [← Nat.add_assoc, htake, ← List.append_assoc]
        congr 1
        rw [List.take_append_eq_append_take, htc, List.take_of_length_le (by omega)]
        congr 2
        omega

theorem Buffer_Read_empty (p : List Byte) (h0 : 0 < p.length) :
    Buffer.Read [] p = ([], [], 0, some .EOF) := by
  have hp : ¬ (p.length = 0) := by omega
  simp [Buffer.Read, hp]

theorem overlay_nil (buf : List Byte) : overlay [] buf = buf := by
  simp [overlay]

theorem Buffer_Read_short (b p : List Byte) (h0 : 0 < b.length) (h : b.length ≤ p.length) :
    Buffer.Read b p = ([], b, (b.length : Int), none) := by
  have hb : b ≠ [] := List.length_pos.mp h0
  simp [Buffer.Read, hb, Nat.min_eq_right h]

theorem readLoop_step {σ : Type} (R : Reader σ) (sz fuel : Nat) (s : σ) (p : List Byte)
    (c : Nat) (hc : c ≠ sz) (hl : c ≤ p.length) :
    readLoop R sz (fuel + 1) s p (c : Int)
      = if (R.Read s (p.drop c)).2.2.2 ≠ none then
          .ret ((R.Read s (p.drop c)).1,
            p.take c ++ overlay (R.Read s (p.drop c)).2.1 (p.drop c))
        else readLoop R sz fuel (R.Read s (p.drop c)).1
          (p.take c ++ overlay (R.Read s (p.drop c)).2.1 (p.drop c))
          (wrap64 ((c : Int) + (R.Read s (p.drop c)).2.2.1)) := by
  have hne : ¬ ((c : Int) = (sz : Int)) := by omega
  have hb : ¬ ((c : Int) < 0 ∨ (p.length : Int) < (c : Int)) := by omega
  simp only [readLoop, hne, if_false, hb, Int.toNat_ofNat]

theorem readLoop_bufReader_short (b p : List Byte) (sz fuel : Nat) (hp : p.length = sz)
    (h : b.length < sz) (hm : sz < 2 ^ 63) :
    readLoop bufReader sz (fuel + 2) b p 0 = .ret ([], b ++ p.drop b.length) := by
  have e0 : readLoop bufReader sz (fuel + 2) b p 0
      = readLoop bufReader sz (fuel + 1 + 1) b p ((0 : Nat) : Int) := rfl
  rw [e0, readLoop_step bufReader sz (fuel + 1) b p 0 (by omega) (by omega)]
  simp only [List.drop_zero, List.take_zero, List.nil_append, bufReader]
  by_cases hbe : b = []
  · subst hbe
    rw [Buffer_Read_empty p (by omega)]
    simp [overlay_nil]
  · have hpos : 0 < b.length := List.length_pos.mpr hbe
    rw [Buffer_Read_short b p hpos (by omega)]
    have hw : wrap64 (((0 : Nat) : Int) + (b.length : Int)) = (b.length : Int) := by
      rw [Nat.cast_zero, Int.zero_add]
      exact wrap64_natCast _ (by omega)
    have hov : overlay b p = b ++ p.drop b.length := overlay_short b p (by omega)
    have hl : (b ++ p.drop b.length).length = p.length := by
      rw [List.length_append, List.length_drop]
      omega
    have htk : List.take b.length (b ++ p.drop b.length) = b := List.take_left' rfl
    have hdr : List.drop b.length (b ++ p.drop b.length) = p.drop b.length :=
      List.drop_left' rfl
    have hd : 0 < (p.drop b.length).length := by
      rw [List.length_drop]
      omega
    simp only [ne_eq, not_true_eq_false, if_false, hw, hov]
    have step := readLoop_step bufReader sz fuel [] (b ++ p.drop b.length) b.length
      (by omega) (by omega)
    simp only [bufReader] at step
    rw [step, hdr, Buffer_Read_empty _ hd]
    simp [overlay_nil, htk]

theorem ReadFrame_of_ReadFull_ok {σ : Type} (R : Reader σ) (s : σ) (fuel : Nat)
    (s1 : σ) (bs : List Byte) (n : Int)
    (h : ReadFull R s (List.replicate 4 0) fuel = .ret (s1, bs, n, none)) :
    ReadFrame R s fuel
      = match readLoop R (Uint32 bs) fuel s1 (List.replicate (Uint32 bs) 0) 0 with
        | .ret (s2, p) => .ret (s2, some p, none)
        | .panic => .panic
        | .timeout => .timeout := by
  unfold ReadFrame readSize binaryRead
  rw [h]

theorem readSize_of_ReadFull_ok {σ : Type} (R : Reader σ) (s : σ) (fuel : Nat)
    (s1 : σ) (bs : List Byte) (n : Int)
    (h : ReadFull R s (List.replicate 4 0) fuel = .ret (s1, bs, n, none)) :
    readSize R s fuel = .ret (s1, Uint32 bs, none) := by
  simp only [readSize, binaryRead, h]

theorem ReadFrame_bufReader_truncated (part : List Byte) (l fuel : Nat) (hl : l < 2 ^ 32)
    (h : part.length < l) :
    ReadFrame bufReader (PutUint32 l ++ part) (fuel + 2)
      = .ret ([], some (part ++ List.replicate (l - part.length) 0), none) := by
  have h4 : (List.replicate 4 (0 : Byte)).length = 4 := rfl
  have hf := ReadFull_bufReader (PutUint32 l ++ part) (List.replicate 4 0) (fuel + 1)
    (by simp) (by simp [PutUint32_length]) (by simp)
  rw [h4] at hf
  have ht : (PutUint32 l ++ part).take 4 = PutUint32 l := List.take_left' (PutUint32_length _)
  have hd : (PutUint32 l ++ part).drop 4 = part := List.drop_left' (PutUint32_length _)
  rw [ht, hd] at hf
  have hloop : readLoop bufReader l (fuel + 1 + 1) part (List.replicate l 0) 0
      = .ret ([], part ++ (List.replicate l (0 : Byte)).drop part.length) :=
    readLoop_bufReader_short part (List.replicate l 0) l fuel (by simp) h (by omega)
  show ReadFrame bufReader (PutUint32 l ++ part) (fuel + 1 + 1) = _
  rw [ReadFrame_of_ReadFull_ok _ _ _ _ _ _ hf, Uint32_PutUint32 _ hl, hloop,
    List.drop_replicate]

theorem ReadFrame_of_readSize_ok {σ : Type} (R : Reader σ) (s : σ) (fuel : Nat)
    (s1 : σ) (sz : Nat) (h : readSize R s fuel = .ret (s1, sz, none)) :
    ReadFrame R s fuel
      = match readLoop R sz fuel s1 (List.replicate sz 0) 0 with
        | .ret (s2, p) => .ret (s2, some p, none)
        | .panic => .panic
        | .timeout => .timeout := by
  unfold ReadFrame
  rw [h]

theorem readSize_le {σ : Type} (R : Reader σ) (s s1 : σ) (fuel sz : Nat) (e : Option Error)
    (h : readSize R s fuel = .ret (s1, sz, e)) : sz < 2 ^ 32 := by
  simp only [readSize, binaryRead] at h
  cases hf : ReadFull R s (List.replicate 4 0) fuel with
  | ret a =>
    obtain ⟨s2, bs, n, err⟩ := a
    rw [hf] at h
    cases err with
    | none =>
      simp only [Outcome.ret.injEq, Prod.mk.injEq] at h
      have := Uint32_lt bs
      omega
    | some e1 =>
      simp only [Outcome.ret.injEq, Prod.mk.injEq] at h
      omega
  | panic => rw [hf] at h; simp at h
  | timeout => rw [hf] at h; simp at h

/-! ## The reader on sources that deliver in chunks -/

theorem chunk_step (buf stream : List Byte) (n k m : Nat) (hlen : buf.length = m)
    (hnk : n + k ≤ m) (hk : k ≤ stream.length) :
    (buf.take n ++ overlay (stream.take k) (buf.drop n)).length = m
      ∧ (buf.take n ++ overlay (stream.take k) (buf.drop n)).take (n + k)
            ++ (stream.drop k).take (m - (n + k))
          = buf.take n ++ stream.take (m - n) := by
  have htl : (stream.take k).length = k := by
    rw [List.length_take]
    omega
  have hbn : (buf.take n).length = n := by
    rw [List.length_take]
    omega
  have hov : overlay (stream.take k) (buf.drop n)
      = stream.take k ++ (buf.drop n).drop k := by
    rw [overlay_short _ _ (by rw [htl, List.length_drop]; omega), htl]
  constructor
  · rw [List.length_append, overlay_length, hbn, List.length_drop]
    omega
  · rw [hov, ← List.append_assoc]
    have hl2 : (buf.take n ++ stream.take k).length = n + k := by
      rw [List.length_append, hbn, htl]
    rw [List.take_left' hl2, List.append_assoc]
    congr 1
    have e : m - n = k + (m - (n + k)) := by omega
    rw [e, List.take_add]

theorem readAtLeastLoop_chunks {σ : Type} (R : Reader σ) (rem : σ → List Byte)
    (hR : DeliversChunks R rem) (m : Nat) (hm : m < 2 ^ 32) (fuel : Nat) :
    ∀ (n : Nat) (s : σ) (buf : List Byte), buf.length = m → n ≤ m → m - n ≤ fuel →
      m - n ≤ (rem s).length →
      ∃ s1, readAtLeastLoop R (m : Int) fuel s buf (n : Int) none
          = .ret (s1, buf.take n ++ (rem s).take (m - n), (m : Int), none)
        ∧ rem s1 = (rem s).drop (m - n) := by
  induction fuel with
  | zero =>
    intro n s buf hlen hn hf hs
    have hnm : n = m := by omega
    subst hnm
    refine ⟨s, ?_, by simp⟩
    rw [readAtLeastLoop_done _ _ _ _ _ _ _ (by omega)]
    simp [← hlen]
  | succ fuel ih =>
    intro n s buf hlen hn hf hs
    by_cases hnm : n = m
    · subst hnm
      refine ⟨s, ?_, by simp⟩
      rw [readAtLeastLoop_done _ _ _ _ _ _ _ (by omega)]
      simp [← hlen]
    · have hreq : buf.drop n ≠ [] := by
        intro h0
        have := congrArg List.length h0
        rw [List.length_drop, List.length_nil] at this
        omega
      have hrem : rem s ≠ [] := by
        intro h0
        rw [h0, List.length_nil] at hs
        omega
      have hD := hR s (buf.drop n) hreq hrem
      rcases hr0 : R.Read s (buf.drop n) with ⟨s3, out, k, e⟩
      rw [hr0] at hD
      obtain ⟨he, hk1, hk2, hout, hrem3⟩ := hD
      simp only at he hk1 hk2 hout hrem3
      subst he
      rw [List.length_drop] at hk2
      have hkm : k.toNat ≤ m - n := by
        have := Nat.min_le_left (buf.length - n) (rem s).length
        omega
      have hks : k.toNat ≤ (rem s).length := by
        have := Nat.min_le_right (buf.length - n) (rem s).length
        omega
      have hc : ((n : Int) < (m : Int) ∧ (none : Option Error) = none) := ⟨by omega, rfl⟩
      have hb : ¬ ((n : Int) < 0 ∨ (buf.length : Int) < (n : Int)) := by omega
      have hw : wrap64 ((n : Int) + k) = ((n + k.toNat : Nat) : Int) := by
        rw [wrap64_of_range _ (by omega) (by omega)]
        omega
      obtain ⟨hlen2, htake⟩ := chunk_step buf (rem s) n k.toNat m hlen (by omega) hks
      obtain ⟨s1, hloop, hrem1⟩ := ih (n + k.toNat) s3
        (buf.take n ++ overlay ((rem s).take k.toNat) (buf.drop n)) hlen2 (by omega) (by omega)
        (by rw [hrem3, List.length_drop]; omega)
      refine ⟨s1, ?_, ?_⟩
      · simp only [readAtLeastLoop, hc, and_self, if_true, hb, if_false, Int.toNat_ofNat, hr0,
          hw, hout]
        rw [hloop, hrem3, htake]
      · rw [hrem1, hrem3, List.drop_drop]
        congr 1
        omega

theorem readLoop_chunks {σ : Type} (R : Reader σ) (rem : σ → List Byte)
    (hR : DeliversChunks R rem) (m : Nat) (hm : m < 2 ^ 32) (fuel : Nat) :
    ∀ (c : Nat) (s : σ) (p : List Byte), p.length = m → c ≤ m → m - c ≤ fuel →
      m - c ≤ (rem s).length →
      ∃ s2, readLoop R m fuel s p (c : Int) = .ret (s2, p.take c ++ (rem s).take (m - c))
        ∧ rem s2 = (rem s).drop (m - c) := by
  induction fuel with
  | zero =>
    intro c s p hlen hc hf hs
    have hcm : c = m := by omega
    subst hcm
    refine ⟨s, ?_, by simp⟩
    rw [readLoop_done _ _ _ _ _ _ rfl]
    simp [← hlen]
  | succ fuel ih =>
    intro c s p hlen hc hf hs
    by_cases hcm : c = m
    · subst hcm
      refine ⟨s, ?_, by simp⟩
      rw [readLoop_done _ _ _ _ _ _ rfl]
      simp [← hlen]
    · have hreq : p.drop c ≠ [] := by
        intro h0
        have := congrArg List.length h0
        rw [List.length_drop, List.length_nil] at this
        omega
      have hrem : rem s ≠ [] := by
        intro h0
        rw [h0, List.length_nil] at hs
        omega
      have hD := hR s (p.drop c) hreq hrem
      rcases hr0 : R.Read s (p.drop c) with ⟨s3, out, k, e⟩
      rw [hr0] at hD
      obtain ⟨he, hk1, hk2, hout, hrem3⟩ := hD
      simp only at he hk1 hk2 hout hrem3
      subst he
      rw [List.length_drop] at hk2
      have hkm : k.toNat ≤ m - c := by
        have := Nat.min_le_left (p.length - c) (rem s).length
        omega
      have hks : k.toNat ≤ (rem s).length := by
        have := Nat.min_le_right (p.length - c) (rem s).length
        omega
      have hw : wrap64 ((c : Int) + k) = ((c + k.toNat : Nat) : Int) := by
        rw [wrap64_of_range _ (by omega) (by omega)]
        omega
      obtain ⟨hlen2, htake⟩ := chunk_step p (rem s) c k.toNat m hlen (by omega) hks
      obtain ⟨s2, hloop, hrem2⟩ := ih (c + k.toNat) s3
        (p.take c ++ overlay ((rem s).take k.toNat) (p.drop c)) hlen2 (by omega) (by omega)
        (by rw [hrem3, List.length_drop]; omega)
      refine ⟨s2, ?_, ?_⟩
      · rw [readLoop_step R m fuel s p c hcm (by omega), hr0]
        simp only [ne_eq, not_true_eq_false, if_false, hw, hout]
        rw [hloop, hrem3, htake]
      · rw [hrem2, hrem3, List.drop_drop]
        congr 1
        omega

theorem ReadFull_chunks {σ : Type} (R : Reader σ) (rem : σ → List Byte)
    (hR : DeliversChunks R rem) (s : σ) (fuel : Nat) (hf : 4 ≤ fuel)
    (hs : 4 ≤ (rem s).length) :
    ∃ s1, ReadFull R s (List.replicate 4 0) fuel
        = .ret (s1, (rem s).take 4, (4 : Int), none)
      ∧ rem s1 = (rem s).drop 4 := by
  obtain ⟨s1, hloop, hrem⟩ := readAtLeastLoop_chunks R rem hR 4 (by decide) fuel 0 s
    (List.replicate 4 0) rfl (by omega) (by omega) (by omega)
  refine ⟨s1, ?_, hrem⟩
  have h4 : ((List.replicate 4 (0 : Byte)).length : Int) = ((4 : Nat) : Int) := rfl
  have hlt : ¬ (((4 : Nat) : Int) < ((4 : Nat) : Int)) := by omega
  have hge : ((4 : Nat) : Int) ≥ ((4 : Nat) : Int) := by omega
  have h0 : (0 : Int) = ((0 : Nat) : Int) := rfl
  unfold ReadFull ReadAtLeast
  rw [h4, if_neg hlt, h0, hloop]
  simp only [hge, if_true, List.take_zero, List.nil_append, Nat.sub_zero]
  rfl

theorem ReadFrame_chunks {σ : Type} (R : Reader σ) (rem : σ → List Byte)
    (hR : DeliversChunks R rem) (s : σ) (body rest : List Byte) (fuel : Nat)
    (hs : rem s = PutUint32 body.length ++ body ++ rest) (hb : body.length < 2 ^ 32)
    (hf4 : 4 ≤ fuel) (hfl : body.length ≤ fuel) :
    ∃ s2, ReadFrame R s fuel = .ret (s2, some body, none) ∧ rem s2 = rest := by
  have ht : (rem s).take 4 = PutUint32 body.length := by
    rw [hs, List.append_assoc]
    exact List.take_left' (PutUint32_length _)
  have hd : (rem s).drop 4 = body ++ rest := by
    rw [hs, List.append_assoc]
    exact List.drop_left' (PutUint32_length _)
  obtain ⟨s1, hfull, hrem1⟩ := ReadFull_chunks R rem hR s fuel hf4
    (by rw [hs]; simp [PutUint32_length])
  rw [ht] at hfull
  rw [hd] at hrem1
  obtain ⟨s2, hloop, hrem2⟩ := readLoop_chunks R rem hR body.length hb fuel 0 s1
    (List.replicate body.length 0) (by simp) (by omega) (by omega)
    (by rw [hrem1]; simp)
  have h0 : (0 : Int) = ((0 : Nat) : Int) := rfl
  refine ⟨s2, ?_, ?_⟩
  · rw [ReadFrame_of_ReadFull_ok R s fuel s1 _ _ hfull, Uint32_PutUint32 _ hb, h0, hloop,
      hrem1]
    simp
  · rw [hrem2, hrem1]
    simp

theorem chunkReader_deliversChunks (k : Nat) (hk : 1 ≤ k) :
    DeliversChunks (chunkReader k) (fun b => b) := by
  intro b p hp hb
  have hpl : 0 < p.length := List.length_pos.mpr hp
  have hbl : 0 < b.length := List.length_pos.mpr hb
  have hmin : 1 ≤ min k (min p.length b.length) :=
    Nat.le_min.mpr ⟨hk, Nat.le_min.mpr ⟨hpl, hbl⟩⟩
  have hle : min k (min p.length b.length) ≤ min p.length b.length := Nat.min_le_right _ _
  have hb2 : (b = []) = False := eq_false hb
  simp only [chunkReader, hb2, if_false, Int.toNat_ofNat]
  refine ⟨trivial, ?_, ?_, trivial, trivial⟩
  · omega
  · omega

/-! ## The claims -/

/-- C1 (round trip): for every payload p with len(p) <= payloadMaxSize and
every bound of at least one stream call per loop, WriteFrame(p) on the empty
in-memory buffer returns (len(p), nil), and ReadFrame on the buffer as the
write left it returns the payload p with a nil error and leaves the buffer
empty. -/
theorem roundtrip_WriteFrame_ReadFrame (p : List Byte) (fuel : Nat)
    (hp : p.length ≤ payloadMaxSize) (hf : 1 ≤ fuel) :
    ∃ b, WriteFrame bufWriter [] p fuel = .ret (b, (p.length : Int), none)
      ∧ ReadFrame bufReader b fuel = .ret ([], some p, none) := by
  obtain ⟨f, rfl⟩ : ∃ f, fuel = f + 1 := ⟨fuel - 1, by omega⟩
  refine ⟨[] ++ wire p, WriteFrame_bufWriter [] p f hp, ?_⟩
  have := ReadFrame_wire p [] f hp
  simpa using this

/-- Witness of C1: the payload "foobar" of Test_FrameReader. -/
theorem roundtrip_WriteFrame_ReadFrame_witness :
    ∃ b, WriteFrame bufWriter [] [102, 111, 111, 98, 97, 114] 1
        = .ret (b, (([102, 111, 111, 98, 97, 114] : List Byte).length : Int), none)
      ∧ ReadFrame bufReader b 1 = .ret ([], some [102, 111, 111, 98, 97, 114], none) :=
  roundtrip_WriteFrame_ReadFrame [102, 111, 111, 98, 97, 114] 1 (by decide) (by decide)

/-- C2 (sequential independence): for every list of payloads, each of length
at most payloadMaxSize, WriteFrame on each in order on the empty in-memory
buffer returns (len(pi), nil) every time; ReadFrame called as many times on
the buffer then returns the payloads in the same order, each with a nil
error, and leaves the buffer empty; and a single ReadFrame on a buffer that
starts with the frame of a payload p takes exactly the 4 + len(p) bytes of
that frame and leaves what follows it. -/
theorem sequential_frames (ps : List (List Byte)) (fuel : Nat)
    (h : ∀ p ∈ ps, p.length ≤ payloadMaxSize) (hf : 1 ≤ fuel) :
    (∃ b, writeFrames bufWriter ps [] fuel
          = .ret (b, ps.map (fun p => ((p.length : Int), none)))
        ∧ b.length = (ps.map (fun p => 4 + p.length)).sum
        ∧ readFrames bufReader ps.length b fuel
          = .ret ([], ps.map (fun p => (some p, none))))
      ∧ ∀ p ∈ ps, ∀ rest : List Byte, ∃ b,
          WriteFrame bufWriter [] p fuel = .ret (b, (p.length : Int), none)
          ∧ b.length = 4 + p.length
          ∧ ReadFrame bufReader (b ++ rest) fuel = .ret (rest, some p, none) := by
  obtain ⟨f, rfl⟩ : ∃ f, fuel = f + 1 := ⟨fuel - 1, by omega⟩
  refine ⟨⟨[] ++ ps.flatMap wire, writeFrames_bufWriter ps f h [], ?_, ?_⟩, ?_⟩
  · clear h
    induction ps with
    | nil => simp
    | cons p ps ih =>
      simp only [List.nil_append] at ih
      simp [List.flatMap_cons, wire, PutUint32_length, ih]
      omega
  · have := readFrames_bufReader ps f h []
    simpa using this
  · intro p hp rest
    refine ⟨[] ++ wire p, WriteFrame_bufWriter [] p f (h p hp), ?_, ?_⟩
    · simp [wire, PutUint32_length]
    · simpa using ReadFrame_wire p rest f (h p hp)

/-- Witness of C2: the payloads "foobar1" and "foobar2" of Test_FrameReader. -/
theorem sequential_frames_witness :
    (∃ b, writeFrames bufWriter
            [[102, 111, 111, 98, 97, 114, 49], [102, 111, 111, 98, 97, 114, 50]] [] 1
          = .ret (b, [((7 : Int), none), ((7 : Int), none)])
        ∧ b.length = 22
        ∧ readFrames bufReader 2 b 1
          = .ret ([], [(some [102, 111, 111, 98, 97, 114, 49], none),
                       (some [102, 111, 111, 98, 97, 114, 50], none)]))
      ∧ ∀ p ∈ [[102, 111, 111, 98, 97, 114, 49], [102, 111, 111, 98, 97, 114, 50]],
          ∀ rest : List Byte, ∃ b,
          WriteFrame bufWriter [] p 1 = .ret (b, (p.length : Int), none)
          ∧ b.length = 4 + p.length
          ∧ ReadFrame bufReader (b ++ rest) 1 = .ret (rest, some p, none) :=
  sequential_frames [[102, 111, 111, 98, 97, 114, 49], [102, 111, 111, 98, 97, 114, 50]] 1
    (by decide) (by decide)

/-- C3 (size limit at write time): for every payload longer than
payloadMaxSize, every sink in every state and every bound, WriteFrame returns
the count 0 and errExceededPayload, whose text is "payload size exceeded",
and leaves the sink as it was; on a sink that records its Write calls the
record is unchanged, so no Write call is made. -/
theorem WriteFrame_size_exceeded {σ : Type} (W : Writer σ) (s : σ) (calls : List WriteCall)
    (data : List Byte) (fuel : Nat) (h : payloadMaxSize < data.length) :
    WriteFrame W s data fuel = .ret (s, 0, some .errExceededPayload)
      ∧ WriteFrame (logged W) (s, calls) data fuel
          = .ret ((s, calls), 0, some .errExceededPayload)
      ∧ Error.errExceededPayload.text = "payload size exceeded" := by
  have hgt : data.length > payloadMaxSize := h
  refine ⟨?_, ?_, rfl⟩ <;> simp only [WriteFrame, hgt, if_true]

/-- Witness of C3: a payload of payloadMaxSize + 1 zero bytes, as in
Test_FrameReader, on the empty in-memory buffer. -/
theorem WriteFrame_size_exceeded_witness :
    WriteFrame bufWriter [] (List.replicate (payloadMaxSize + 1) (0 : Byte)) 0
        = .ret ([], 0, some .errExceededPayload)
      ∧ WriteFrame (logged bufWriter) ([], []) (List.replicate (payloadMaxSize + 1) (0 : Byte)) 0
          = .ret (([], []), 0, some .errExceededPayload)
      ∧ Error.errExceededPayload.text = "payload size exceeded" :=
  WriteFrame_size_exceeded bufWriter [] [] (List.replicate (payloadMaxSize + 1) 0) 0
    (by rw [List.length_replicate]; exact Nat.lt_succ_self _)

/-- C4 (exact boundary accepted): for every payload of length at most
payloadMaxSize, the length payloadMaxSize included, and every sink that
accepts every byte without an error, WriteFrame with a bound of at least one
stream call returns a nil error and a count equal to the length of the
payload. -/
theorem WriteFrame_boundary_accepted {σ : Type} (W : Writer σ) (s : σ) (data : List Byte)
    (fuel : Nat) (hW : AcceptsAll W) (hd : data.length ≤ payloadMaxSize) (hf : 1 ≤ fuel) :
    ∃ s1, WriteFrame W s data fuel = .ret (s1, (data.length : Int), none) := by
  obtain ⟨f, rfl⟩ : ∃ f, fuel = f + 1 := ⟨fuel - 1, by omega⟩
  exact ⟨_, WriteFrame_acceptsAll W hW data hd f s⟩

/-- Witness of C4: a payload of exactly payloadMaxSize zero bytes on the
in-memory buffer, as in Test_FrameWriter. -/
theorem WriteFrame_boundary_accepted_witness :
    ∃ s1, WriteFrame bufWriter [] (List.replicate payloadMaxSize (0 : Byte)) 1
      = .ret (s1, ((List.replicate payloadMaxSize (0 : Byte)).length : Int), none) :=
  WriteFrame_boundary_accepted bufWriter [] (List.replicate payloadMaxSize 0) 1
    bufWriter_acceptsAll (by rw [List.length_replicate]) (Nat.le_refl 1)

/-- C5, the code at a failing input: on a sink that takes one byte of every
Write call without an error, WriteFrame of the one-byte payload [7] returns
(1, nil), and the bytes the sink accepted are 0, 7 and not the four length
bytes 0, 0, 0, 1 followed by 7. -/
theorem WriteFrame_short_length_write :
    WriteFrame (logged (chunkWriter 1)) ([], []) [7] 1
        = .ret (([0, 7], [⟨[0, 0, 0, 1], 1, none⟩, ⟨[7], 1, none⟩]), 1, none)
      ∧ accepted [⟨[0, 0, 0, 1], 1, none⟩, ⟨[7], 1, none⟩] = [0, 7]
      ∧ PutUint32 ([7] : List Byte).length ++ [7] = [0, 0, 0, 1, 7] := by
  decide

/-- C6, as amended (short writes): for every k, every payload p with
k < len(p) <= payloadMaxSize and every sink that takes at least one and at
most k bytes of every non-empty Write call without an error, WriteFrame with a
bound of at least len(p) stream calls returns (len(p), nil); after the call
for the four length bytes it makes at least two and at most len(p) body
calls, each on the suffix of p that was not yet accepted and each answered
without an error with a count between 1 and k, and the bytes accepted in the
body calls, put together, are p. -/
theorem WriteFrame_chunked_sink {σ : Type} (W : Writer σ) (k : Nat) (s : σ) (p : List Byte)
    (fuel : Nat) (hW : AcceptsChunks W k) (hk : k < p.length)
    (hp : p.length ≤ payloadMaxSize) (hf : p.length ≤ fuel) :
    ∃ s1 hc calls,
      WriteFrame (logged W) (s, []) p fuel = .ret ((s1, hc :: calls), (p.length : Int), none)
        ∧ WriteFrame W s p fuel = .ret (s1, (p.length : Int), none)
        ∧ hc.arg = PutUint32 p.length
        ∧ 2 ≤ calls.length ∧ calls.length ≤ p.length
        ∧ (∀ (i : Nat) (hi : i < calls.length),
            (calls.get ⟨i, hi⟩).arg = p.drop (accepted (calls.take i)).length
              ∧ (calls.get ⟨i, hi⟩).err = none
              ∧ 1 ≤ (calls.get ⟨i, hi⟩).n ∧ (calls.get ⟨i, hi⟩).n ≤ (k : Int))
        ∧ accepted calls = p := by
  have hgt : ¬ (p.length > payloadMaxSize) := by omega
  obtain ⟨he, -, -⟩ := hW s (PutUint32 p.length) (by simp [PutUint32])
  obtain ⟨s1, calls, hr, hbc⟩ := writeLoop_chunks W k hW p hp fuel 0
    (W.Write s (PutUint32 p.length)).1
    [⟨PutUint32 p.length, (W.Write s (PutUint32 p.length)).2.1, none⟩] (by omega) (by omega)
  have hlog : WriteFrame (logged W) (s, []) p fuel
      = .ret ((s1, ⟨PutUint32 p.length, (W.Write s (PutUint32 p.length)).2.1, none⟩ :: calls),
          (p.length : Int), none) := by
    simp only [WriteFrame, hgt, if_false, binaryWrite, uint32_of_le _ hp, logged_Write, he,
      List.nil_append]
    exact hr
  obtain ⟨hl1, hl2⟩ := BodyCalls_length k p calls 0 hbc
  refine ⟨s1, _, calls, hlog, ?_, rfl, hl2 (by omega), by omega, ?_, ?_⟩
  · rw [← WriteFrame_unlogged W s [] p fuel, hlog]
    rfl
  · intro i hi
    have := BodyCalls_get k p calls 0 i hi hbc
    simpa using this
  · simpa using BodyCalls_accepted k p calls 0 hbc

/-- Witness of C6 as amended: a sink taking at most 2 bytes a call and a
payload of 3 bytes. -/
theorem WriteFrame_chunked_sink_witness :
    ∃ s1 hc calls,
      WriteFrame (logged (chunkWriter 2)) ([], []) [1, 2, 3] 3
          = .ret ((s1, hc :: calls), ((([1, 2, 3] : List Byte).length : Nat) : Int), none)
        ∧ WriteFrame (chunkWriter 2) [] [1, 2, 3] 3
          = .ret (s1, ((([1, 2, 3] : List Byte).length : Nat) : Int), none)
        ∧ hc.arg = PutUint32 ([1, 2, 3] : List Byte).length
        ∧ 2 ≤ calls.length ∧ calls.length ≤ ([1, 2, 3] : List Byte).length
        ∧ (∀ (i : Nat) (hi : i < calls.length),
            (calls.get ⟨i, hi⟩).arg = ([1, 2, 3] : List Byte).drop (accepted (calls.take i)).length
              ∧ (calls.get ⟨i, hi⟩).err = none
              ∧ 1 ≤ (calls.get ⟨i, hi⟩).n ∧ (calls.get ⟨i, hi⟩).n ≤ ((2 : Nat) : Int))
        ∧ accepted calls = [1, 2, 3] :=
  WriteFrame_chunked_sink (chunkWriter 2) 2 [] [1, 2, 3] 3
    (chunkWriter_acceptsChunks 2 (by decide)) (by decide) (by decide) (by decide)

/-- Counterexample to C6 as stated: the sink that takes at most 0 bytes of
every call, without an error, and the one-byte payload [1], so that
K = 0 < len(p) <= payloadMaxSize: for no bound on the number of stream calls
does WriteFrame return. -/
theorem WriteFrame_zero_chunk_never_returns :
    (0 < ([1] : List Byte).length ∧ ([1] : List Byte).length ≤ payloadMaxSize)
      ∧ (∀ (s p : List Byte), ((chunkWriter 0).Write s p).2 = ((0 : Int), none)
          ∧ ((chunkWriter 0).Write s p).1 = s)
      ∧ ¬ ∃ fuel r, WriteFrame (chunkWriter 0) [] [1] fuel = .ret r := by
  refine ⟨by decide, ?_, ?_⟩
  · intro s p
    simp [chunkWriter]
  · rintro ⟨fuel, r, h⟩
    have hgt : ¬ (([1] : List Byte).length > payloadMaxSize) := by decide
    simp only [WriteFrame, hgt, if_false, binaryWrite, chunkWriter_Write,
      writeLoop_chunkWriter_zero] at h
    exact Outcome.noConfusion h

/-- C7 (header independence): for every header byte h and every payload p
with len(p) <= payloadMaxSize, WriteHeader(h) and then WriteFrame(p) on the
empty in-memory buffer both succeed and leave exactly the bytes
[h] ++ PutUint32(len(p)) ++ p on it; ReadHeader on that buffer returns
(h, nil) and the ReadFrame after it returns (p, nil), leaving the buffer
empty. -/
theorem header_then_frame (h : Byte) (p : List Byte) (fuel : Nat)
    (hp : p.length ≤ payloadMaxSize) (hf : 1 ≤ fuel) :
    WriteHeader bufWriter [] h = ([h], none)
      ∧ WriteFrame bufWriter [h] p fuel
          = .ret ([h] ++ PutUint32 p.length ++ p, (p.length : Int), none)
      ∧ ReadHeader bufReader ([h] ++ PutUint32 p.length ++ p)
          = (PutUint32 p.length ++ p, h, none)
      ∧ ReadFrame bufReader (PutUint32 p.length ++ p) fuel = .ret ([], some p, none) := by
  obtain ⟨f, rfl⟩ : ∃ f, fuel = f + 1 := ⟨fuel - 1, by omega⟩
  refine ⟨rfl, ?_, ?_, ?_⟩
  · rw [WriteFrame_bufWriter [h] p f hp]
    simp [wire]
  · simp [ReadHeader, bufReader, Buffer.Read, overlay]
  · simpa [wire] using ReadFrame_wire p [] f hp

/-- Witness of C7: the header byte 1 and the payload "foobar". -/
theorem header_then_frame_witness :
    WriteHeader bufWriter [] 1 = ([1], none)
      ∧ WriteFrame bufWriter [1] [102, 111, 111, 98, 97, 114] 1
          = .ret ([1] ++ PutUint32 ([102, 111, 111, 98, 97, 114] : List Byte).length
                    ++ [102, 111, 111, 98, 97, 114],
                  (([102, 111, 111, 98, 97, 114] : List Byte).length : Int), none)
      ∧ ReadHeader bufReader ([1] ++ PutUint32 ([102, 111, 111, 98, 97, 114] : List Byte).length
                    ++ [102, 111, 111, 98, 97, 114])
          = (PutUint32 ([102, 111, 111, 98, 97, 114] : List Byte).length
                    ++ [102, 111, 111, 98, 97, 114], 1, none)
      ∧ ReadFrame bufReader (PutUint32 ([102, 111, 111, 98, 97, 114] : List Byte).length
                    ++ [102, 111, 111, 98, 97, 114]) 1
          = .ret ([], some [102, 111, 111, 98, 97, 114], none) :=
  header_then_frame 1 [102, 111, 111, 98, 97, 114] 1 (by decide) (by decide)

/-- C8, the code at a failing input: on a sink with room for 7 bytes,
WriteFrame of the six bytes "foobar" has its length bytes taken whole; the
one body call is answered (3, io.ErrShortWrite), three payload bytes being
accepted, and WriteFrame returns the count 0 with that error. -/
theorem WriteFrame_count_on_failed_write :
    WriteFrame (logged limitWriter) (([], 7), []) [102, 111, 111, 98, 97, 114] 1
        = .ret ((([0, 0, 0, 6, 102, 111, 111], 0),
              [⟨[0, 0, 0, 6], 4, none⟩,
               ⟨[102, 111, 111, 98, 97, 114], 3, some .ErrShortWrite⟩]),
            0, some .ErrShortWrite)
      ∧ accepted [⟨[102, 111, 111, 98, 97, 114], 3, some .ErrShortWrite⟩] = [102, 111, 111] := by
  decide

/-- C9 (ReadHeader result classification): for every source and every answer
(s1, out, n, err) it gives to the one Read call on a one-byte slice,
ReadHeader leaves the source in s1 and returns err unchanged when err is
non-nil, returns errIncompleteRead when err is nil and n is not 1 (so also
when n is 0), returns a nil error exactly when err is nil and n = 1, and the
byte it returns is the byte the source stored in the slice. -/
theorem ReadHeader_classification {σ : Type} (R : Reader σ) (s s1 : σ) (out : List Byte)
    (n : Int) (err : Option Error) (h : R.Read s (List.replicate 1 0) = (s1, out, n, err)) :
    (ReadHeader R s).1 = s1
      ∧ (err ≠ none → (ReadHeader R s).2.2 = err)
      ∧ (err = none → n ≠ 1 → (ReadHeader R s).2.2 = some .errIncompleteRead)
      ∧ (err = none → n = 0 → (ReadHeader R s).2.2 = some .errIncompleteRead)
      ∧ ((ReadHeader R s).2.2 = none ↔ (err = none ∧ n = 1))
      ∧ (∀ b rest, out = b :: rest → (ReadHeader R s).2.1 = b)
      ∧ (out = [] → (ReadHeader R s).2.1 = 0) := by
  have h2 : R.Read s [0] = (s1, out, n, err) := h
  refine ⟨?_, ?_, ?_, ?_, ?_, ?_, ?_⟩
  · simp [ReadHeader, h2]
  · intro he
    simp [ReadHeader, h2, he]
  · intro he hn
    simp [ReadHeader, h2, he, hn]
  · intro he hn
    simp [ReadHeader, h2, he, hn]
  · by_cases he : err = none
    · by_cases hn : n = 1
      · simp [ReadHeader, h2, he, hn]
      · simp [ReadHeader, h2, he, hn]
    · simp [ReadHeader, h2, he]
  · intro b rest ho
    simp [ReadHeader, h2, ho, overlay]
  · intro ho
    simp [ReadHeader, h2, ho, overlay]

/-- Witness of C9: the in-memory buffer holding the bytes 5, 6. -/
theorem ReadHeader_classification_witness :
    (ReadHeader bufReader [5, 6]).1 = [6]
      ∧ ((none : Option Error) ≠ none → (ReadHeader bufReader [5, 6]).2.2 = none)
      ∧ ((none : Option Error) = none → (1 : Int) ≠ 1 →
          (ReadHeader bufReader [5, 6]).2.2 = some .errIncompleteRead)
      ∧ ((none : Option Error) = none → (1 : Int) = 0 →
          (ReadHeader bufReader [5, 6]).2.2 = some .errIncompleteRead)
      ∧ ((ReadHeader bufReader [5, 6]).2.2 = none ↔ ((none : Option Error) = none ∧ (1 : Int) = 1))
      ∧ (∀ b rest, ([5] : List Byte) = b :: rest → (ReadHeader bufReader [5, 6]).2.1 = b)
      ∧ (([5] : List Byte) = [] → (ReadHeader bufReader [5, 6]).2.1 = 0) :=
  ReadHeader_classification bufReader [5, 6] [6] [5] 1 none (by decide)

/-- C10 (failure of the length read): for every source, whenever io.ReadFull
on the four length bytes returns having obtained n < 4 bytes, its error is
non-nil and ReadFrame returns a nil payload together with exactly that error,
leaving the source in the state in which the length read left it (no body
read is made); for the in-memory buffer holding fewer than 4 bytes and a
bound of at least two stream calls this is io.EOF for the empty buffer and
io.ErrUnexpectedEOF otherwise. -/
theorem ReadFrame_length_read_failure {σ : Type} (R : Reader σ) (s s1 : σ) (fuel : Nat)
    (buf : List Byte) (n : Int) (err : Option Error)
    (h : ReadFull R s (List.replicate 4 0) fuel = .ret (s1, buf, n, err)) (hn : n < 4) :
    err ≠ none
      ∧ ReadFrame R s fuel = .ret (s1, none, err)
      ∧ ∀ b : List Byte, b.length < 4 → 2 ≤ fuel →
          ReadFrame bufReader b fuel
            = .ret ([], none, some (if b = [] then Error.EOF else Error.ErrUnexpectedEOF)) := by
  have hne : err ≠ none := ReadFull_short R s _ fuel s1 buf n err h (by simpa using hn)
  refine ⟨hne, ?_, ?_⟩
  · cases err with
    | none => exact absurd rfl hne
    | some e => exact ReadFrame_of_ReadFull_error R s fuel s1 buf n e h
  · intro b hb hf
    obtain ⟨f, rfl⟩ : ∃ f, fuel = f + 2 := ⟨fuel - 2, by omega⟩
    exact ReadFrame_bufReader_short b f hb

/-- Witness of C10: the in-memory buffer holding the two bytes 0, 0. -/
theorem ReadFrame_length_read_failure_witness :
    (some Error.ErrUnexpectedEOF) ≠ none
      ∧ ReadFrame bufReader [0, 0] 2 = .ret ([], none, some Error.ErrUnexpectedEOF)
      ∧ ∀ b : List Byte, b.length < 4 → 2 ≤ 2 →
          ReadFrame bufReader b 2
            = .ret ([], none, some (if b = [] then Error.EOF else Error.ErrUnexpectedEOF)) :=
  ReadFrame_length_read_failure bufReader [0, 0] [] 2 [0, 0, 0, 0] 2
    (some Error.ErrUnexpectedEOF) (by decide) (by decide)

/-- C11 (failure of the length write): for every payload p with
len(p) <= payloadMaxSize, every sink and every bound, when the sink answers
the Write call on the four length bytes with an error e, WriteFrame returns
the count 0 and exactly e, and the record of a recording sink holds that one
call only, so no Write call is made for the payload body. -/
theorem WriteFrame_length_write_failure {σ : Type} (W : Writer σ) (s s1 : σ) (data : List Byte)
    (fuel : Nat) (n : Int) (e : Error) (hd : data.length ≤ payloadMaxSize)
    (h : W.Write s (PutUint32 data.length) = (s1, n, some e)) :
    WriteFrame W s data fuel = .ret (s1, 0, some e)
      ∧ WriteFrame (logged W) (s, []) data fuel
          = .ret ((s1, [⟨PutUint32 data.length, n, some e⟩]), 0, some e) := by
  have hgt : ¬ (data.length > payloadMaxSize) := by omega
  constructor
  · simp only [WriteFrame, hgt, if_false, binaryWrite, uint32_of_le _ hd, h]
  · simp only [WriteFrame, hgt, if_false, binaryWrite, uint32_of_le _ hd, logged_Write, h,
      List.nil_append]

/-- Witness of C11: a sink with room for 2 bytes and the payload "foobar";
the Write call on the length bytes is answered (2, io.ErrShortWrite). -/
theorem WriteFrame_length_write_failure_witness :
    WriteFrame limitWriter ([], 2) [102, 111, 111, 98, 97, 114] 0
        = .ret (([0, 0], 0), 0, some .ErrShortWrite)
      ∧ WriteFrame (logged limitWriter) (([], 2), []) [102, 111, 111, 98, 97, 114] 0
          = .ret ((([0, 0], 0),
              [⟨PutUint32 ([102, 111, 111, 98, 97, 114] : List Byte).length, 2,
                some .ErrShortWrite⟩]), 0, some .ErrShortWrite) :=
  WriteFrame_length_write_failure limitWriter ([], 2) ([0, 0], 0) [102, 111, 111, 98, 97, 114] 0
    2 .ErrShortWrite (by decide) (by decide)

/-- C12 (empty payload): on every sink that accepts every byte, WriteFrame of
the zero-length payload returns (0, nil) for every bound and makes exactly one
Write call, on the four bytes 0, 0, 0, 0, so no body call; on the in-memory
buffer exactly those four bytes are appended. On every source on which the
length read delivers the bytes 0, 0, 0, 0 without an error, ReadFrame returns
a zero-length payload that is not nil with a nil error and leaves the source
in the state in which the length read left it, so no body read is made; on
the in-memory buffer exactly the four bytes are taken. -/
theorem empty_payload {σ τ : Type} (W : Writer σ) (s : σ) (R : Reader τ) (t t1 : τ) (n : Int)
    (fuel : Nat) (hW : AcceptsAll W)
    (hR : ReadFull R t (List.replicate 4 0) fuel = .ret (t1, [0, 0, 0, 0], n, none)) :
    WriteFrame W s [] fuel = .ret ((W.Write s [0, 0, 0, 0]).1, 0, none)
      ∧ WriteFrame (logged W) (s, []) [] fuel
          = .ret (((W.Write s [0, 0, 0, 0]).1, [⟨[0, 0, 0, 0], 4, none⟩]), 0, none)
      ∧ (∀ b : List Byte, WriteFrame bufWriter b [] fuel = .ret (b ++ [0, 0, 0, 0], 0, none))
      ∧ ReadFrame R t fuel = .ret (t1, some [], none)
      ∧ (∀ rest : List Byte, 1 ≤ fuel →
          ReadFrame bufReader ([0, 0, 0, 0] ++ rest) fuel = .ret (rest, some [], none)) := by
  have hgt : ¬ (([] : List Byte).length > payloadMaxSize) := by decide
  have hp : PutUint32 (uint32 ([] : List Byte).length) = [0, 0, 0, 0] := by decide
  have hw := hW s [0, 0, 0, 0]
  have he : (W.Write s [0, 0, 0, 0]).2.2 = none := by rw [hw]
  have hn : (W.Write s [0, 0, 0, 0]).2.1 = 4 := by rw [hw]; rfl
  refine ⟨?_, ?_, ?_, ?_, ?_⟩
  · simp only [WriteFrame, hgt, if_false, binaryWrite, hp, he]
    exact writeLoop_done _ _ _ _ _ _ rfl
  · simp only [WriteFrame, hgt, if_false, binaryWrite, hp, logged_Write, he, hn,
      List.nil_append]
    exact writeLoop_done _ _ _ _ _ _ rfl
  · intro b
    simp only [WriteFrame, hgt, if_false, binaryWrite, hp, bufWriter, Buffer.Write]
    exact writeLoop_done _ _ _ _ _ _ rfl
  · have hu : Uint32 [0, 0, 0, 0] = 0 := by decide
    simp only [ReadFrame, readSize, binaryRead, hR, hu, List.replicate_zero]
    have hl := readLoop_done R 0 fuel t1 [] 0 rfl
    simp only [Nat.cast_zero] at hl
    rw [hl]
  · intro rest hf
    obtain ⟨f, rfl⟩ : ∃ f, fuel = f + 1 := ⟨fuel - 1, by omega⟩
    exact ReadFrame_bufReader [] rest f (by decide)

/-- Witness of C12: the in-memory buffer as the sink, and as the source a
buffer holding the bytes 0, 0, 0, 0, 9. -/
theorem empty_payload_witness :
    WriteFrame bufWriter [] [] 1 = .ret ((bufWriter.Write [] [0, 0, 0, 0]).1, 0, none)
      ∧ WriteFrame (logged bufWriter) ([], []) [] 1
          = .ret (((bufWriter.Write [] [0, 0, 0, 0]).1, [⟨[0, 0, 0, 0], 4, none⟩]), 0, none)
      ∧ (∀ b : List Byte, WriteFrame bufWriter b [] 1 = .ret (b ++ [0, 0, 0, 0], 0, none))
      ∧ ReadFrame bufReader [0, 0, 0, 0, 9] 1 = .ret ([9], some [], none)
      ∧ (∀ rest : List Byte, 1 ≤ 1 →
          ReadFrame bufReader ([0, 0, 0, 0] ++ rest) 1 = .ret (rest, some [], none)) :=
  empty_payload bufWriter [] bufReader [0, 0, 0, 0, 9] [9] 4 1 bufWriter_acceptsAll (by decide)

/-- C13 (maximum payload size, lossless length encoding): payloadMaxSize is
(4 * 1024 * 1024 * 1024) - 1 = 4294967295 = 2^32 - 1; for every length l with
l <= payloadMaxSize the conversion uint32(l) does not wrap and decoding the
four bytes that encode it gives l; and the four bytes WriteFrame puts first on
the in-memory buffer for a payload of such a length decode to that length. -/
theorem payloadMaxSize_lossless :
    payloadMaxSize = (4 * 1024 * 1024 * 1024) - 1
      ∧ payloadMaxSize = 4294967295
      ∧ payloadMaxSize = 2 ^ 32 - 1
      ∧ (∀ l : Nat, l ≤ payloadMaxSize →
          uint32 l = l ∧ Uint32 (PutUint32 (uint32 l)) = l)
      ∧ (∀ (data : List Byte) (fuel : Nat), data.length ≤ payloadMaxSize → 1 ≤ fuel →
          ∃ b, WriteFrame bufWriter [] data fuel = .ret (b, (data.length : Int), none)
            ∧ Uint32 (b.take 4) = data.length) := by
  refine ⟨rfl, by decide, by decide, ?_, ?_⟩
  · intro l hl
    have h := uint32_of_le l hl
    rw [payloadMaxSize_eq] at hl
    rw [h]
    exact ⟨rfl, Uint32_PutUint32 l (by omega)⟩
  · intro data fuel hd hf
    obtain ⟨f, rfl⟩ : ∃ f, fuel = f + 1 := ⟨fuel - 1, by omega⟩
    refine ⟨[] ++ wire data, WriteFrame_bufWriter [] data f hd, ?_⟩
    have ht : ([] ++ wire data).take 4 = PutUint32 data.length := by
      rw [List.nil_append]
      exact List.take_left' (PutUint32_length _)
    rw [ht]
    rw [payloadMaxSize_eq] at hd
    exact Uint32_PutUint32 _ (by omega)

/-- C16 (a nil error means a complete write): for every payload, every sink
and every bound, when WriteFrame returns the count c and the error e, a nil e
gives c = len(p), and a count c < len(p) gives a non-nil e. -/
theorem WriteFrame_nil_error_complete {σ : Type} (W : Writer σ) (s s1 : σ) (data : List Byte)
    (fuel : Nat) (c : Int) (e : Option Error)
    (h : WriteFrame W s data fuel = .ret (s1, c, e)) :
    (e = none → c = (data.length : Int)) ∧ (c < (data.length : Int) → e ≠ none) := by
  have key : e = none → c = (data.length : Int) := by
    intro he
    subst he
    by_cases hgt : data.length > payloadMaxSize
    · simp [WriteFrame, hgt] at h
    · cases hw : (W.Write s (PutUint32 (uint32 data.length))).2.2 with
      | none =>
        simp only [WriteFrame, hgt, if_false, binaryWrite, hw] at h
        exact writeLoop_nil_error W data fuel _ _ _ _ _ h
      | some e1 =>
        simp [WriteFrame, hgt, binaryWrite, hw] at h
  refine ⟨key, ?_⟩
  intro hc he
  have := key he
  omega

/-- Witness of C16: the payload "foobar" on the in-memory buffer. -/
theorem WriteFrame_nil_error_complete_witness :
    ((none : Option Error) = none → (6 : Int) = (([102, 111, 111, 98, 97, 114] : List Byte).length : Int))
      ∧ ((6 : Int) < (([102, 111, 111, 98, 97, 114] : List Byte).length : Int)
          → (none : Option Error) ≠ none) :=
  WriteFrame_nil_error_complete bufWriter [] [0, 0, 0, 6, 102, 111, 111, 98, 97, 114]
    [102, 111, 111, 98, 97, 114] 1 6 none (by decide)

/-- C18 (the reader cannot decode a length over the limit): every four bytes
decode to a length L with 0 <= L <= payloadMaxSize; every size that readSize
returns is at most payloadMaxSize, so WriteFrame accepts a payload of that
length; and the lengths WriteFrame can put on the wire are exactly the lengths
that can be decoded: l <= payloadMaxSize holds exactly when some four bytes
decode to l, the four bytes that WriteFrame writes for l decode to l, and any
four bytes are the ones WriteFrame writes for the length they decode to. -/
theorem decoded_length_within_limit :
    (∀ b0 b1 b2 b3 : Byte, Uint32 [b0, b1, b2, b3] ≤ payloadMaxSize)
      ∧ (∀ (σ : Type) (R : Reader σ) (s s1 : σ) (fuel sz : Nat) (e : Option Error),
          readSize R s fuel = .ret (s1, sz, e) → sz ≤ payloadMaxSize)
      ∧ (∀ (σ : Type) (R : Reader σ) (s s1 : σ) (fuel : Nat) (p : List Byte) (e : Option Error),
          ReadFrame R s fuel = .ret (s1, some p, e) → p.length ≤ payloadMaxSize)
      ∧ (∀ l : Nat, l ≤ payloadMaxSize ↔ ∃ b0 b1 b2 b3 : Byte, Uint32 [b0, b1, b2, b3] = l)
      ∧ (∀ l : Nat, l ≤ payloadMaxSize → Uint32 (PutUint32 (uint32 l)) = l)
      ∧ (∀ b0 b1 b2 b3 : Byte,
          PutUint32 (uint32 (Uint32 [b0, b1, b2, b3])) = [b0, b1, b2, b3]) := by
  have hsz : ∀ (σ : Type) (R : Reader σ) (s s1 : σ) (fuel sz : Nat) (e : Option Error),
      readSize R s fuel = .ret (s1, sz, e) → sz ≤ payloadMaxSize := by
    intro σ R s s1 fuel sz e h
    rw [payloadMaxSize_eq]
    simp only [readSize, binaryRead] at h
    cases hf : ReadFull R s (List.replicate 4 0) fuel with
    | ret a =>
      obtain ⟨s2, bs, n, err⟩ := a
      rw [hf] at h
      cases err with
      | none =>
        simp only [Outcome.ret.injEq, Prod.mk.injEq] at h
        have := Uint32_lt bs
        omega
      | some e1 =>
        simp only [Outcome.ret.injEq, Prod.mk.injEq] at h
        omega
    | panic => rw [hf] at h; simp at h
    | timeout => rw [hf] at h; simp at h
  refine ⟨?_, hsz, ?_, ?_, ?_, ?_⟩
  · intro b0 b1 b2 b3
    have := Uint32_lt [b0, b1, b2, b3]
    rw [payloadMaxSize_eq]
    omega
  · intro σ R s s1 fuel p e h
    cases hr : readSize R s fuel with
    | ret a =>
      obtain ⟨s2, sz, err⟩ := a
      have hle := hsz σ R s s2 fuel sz err hr
      cases err with
      | none =>
        simp only [ReadFrame, hr] at h
        cases hl : readLoop R sz fuel s2 (List.replicate sz 0) 0 with
        | ret b =>
          obtain ⟨s3, p3⟩ := b
          rw [hl] at h
          simp only [Outcome.ret.injEq, Prod.mk.injEq, Option.some.injEq] at h
          have := readLoop_length R sz fuel _ _ _ _ _ hl
          rw [← h.2.1, this, List.length_replicate]
          exact hle
        | panic => rw [hl] at h; simp at h
        | timeout => rw [hl] at h; simp at h
      | some e1 => simp [ReadFrame, hr] at h
    | panic => simp [ReadFrame, hr] at h
    | timeout => simp [ReadFrame, hr] at h
  · intro l
    constructor
    · intro hl
      rw [payloadMaxSize_eq] at hl
      refine ⟨toByte (l >>> 24), toByte (l >>> 16), toByte (l >>> 8), toByte l, ?_⟩
      exact Uint32_PutUint32 l (by omega)
    · rintro ⟨b0, b1, b2, b3, rfl⟩
      have := Uint32_lt [b0, b1, b2, b3]
      rw [payloadMaxSize_eq]
      omega
  · intro l hl
    rw [uint32_of_le l hl]
    rw [payloadMaxSize_eq] at hl
    exact Uint32_PutUint32 l (by omega)
  · intro b0 b1 b2 b3
    have hlt := Uint32_lt [b0, b1, b2, b3]
    have : uint32 (Uint32 [b0, b1, b2, b3]) = Uint32 [b0, b1, b2, b3] := by
      unfold uint32
      omega
    rw [this]
    exact PutUint32_Uint32 b0 b1 b2 b3

/-- C14 (the error of a body read is dropped): for every source on which
readSize returns the size L without an error, whenever ReadFrame returns, it
returns a nil error and a payload that is not nil and has length exactly L,
whatever the body reads answered. On the recording version of a source whose
Read calls report counts between 0 and the length of the slice, the front of
the returned buffer holds the bytes counted in the body calls, a call
answered with an error being among them without its error reaching the
caller. On the in-memory buffer holding the four length bytes of l and then
fewer than l bytes, ReadFrame with a bound of at least two stream calls does
return: the payload is the bytes present followed by zero bytes up to the
length l, and the error is nil although the body read ended with io.EOF. -/
theorem ReadFrame_body_error_dropped {σ : Type} (R : Reader σ) (s s1 s2 : σ) (fuel L : Nat)
    (p : Option (List Byte)) (e : Option Error)
    (h1 : readSize R s fuel = .ret (s1, L, none))
    (h2 : ReadFrame R s fuel = .ret (s2, p, e)) :
    e = none
      ∧ (∃ buf, p = some buf ∧ buf.length = L)
      ∧ (∀ (log1 log2 : List ReadCall), SaneReads R →
          readSize (loggedR R) (s, []) fuel = .ret ((s1, log1), L, none) →
          ReadFrame (loggedR R) (s, []) fuel = .ret ((s2, log2), p, e) →
          ∃ calls buf, log2 = log1 ++ calls ∧ p = some buf
            ∧ buf.take (counted calls).length = counted calls)
      ∧ (∀ (part : List Byte) (l : Nat), l < 2 ^ 32 → part.length < l → 2 ≤ fuel →
          ReadFrame bufReader (PutUint32 l ++ part) fuel
            = .ret ([], some (part ++ List.replicate (l - part.length) 0), none)) := by
  have hL := readSize_le R s s1 fuel L none h1
  have main : ∀ {τ : Type} (Q : Reader τ) (t t1 t2 : τ) (q : Option (List Byte))
      (e1 : Option Error), readSize Q t fuel = .ret (t1, L, none) →
      ReadFrame Q t fuel = .ret (t2, q, e1) →
      ∃ buf, readLoop Q L fuel t1 (List.replicate L 0) 0 = .ret (t2, buf)
        ∧ q = some buf ∧ e1 = none ∧ buf.length = L := by
    intro τ Q t t1 t2 q e1 g1 g2
    rw [ReadFrame_of_readSize_ok Q t fuel t1 L g1] at g2
    cases hl : readLoop Q L fuel t1 (List.replicate L 0) 0 with
    | ret a =>
      obtain ⟨t3, buf⟩ := a
      rw [hl] at g2
      simp only [Outcome.ret.injEq, Prod.mk.injEq] at g2
      obtain ⟨rfl, rfl, rfl⟩ := g2
      refine ⟨buf, rfl, rfl, rfl, ?_⟩
      rw [readLoop_length Q L fuel _ _ _ _ _ hl, List.length_replicate]
    | panic => rw [hl] at g2; simp at g2
    | timeout => rw [hl] at g2; simp at g2
  obtain ⟨buf, -, hp, he, hlen⟩ := main R s s1 s2 p e h1 h2
  refine ⟨he, ⟨buf, hp, hlen⟩, ?_, ?_⟩
  · intro log1 log2 hR g1 g2
    obtain ⟨buf2, hloop, hp2, -, -⟩ := main (loggedR R) (s, []) (s1, log1) (s2, log2) p e g1 g2
    obtain ⟨calls, hlog, htake⟩ := readLoop_counted R hR L fuel s1 log1 (List.replicate L 0) 0
      s2 log2 buf2 (by omega) (by rw [List.length_replicate]; exact hL) hloop
    refine ⟨calls, buf2, hlog, hp2, ?_⟩
    simpa using htake
  · intro part l hl hpart hf
    obtain ⟨f, rfl⟩ : ∃ f, fuel = f + 2 := ⟨fuel - 2, by omega⟩
    exact ReadFrame_bufReader_truncated part l f hl hpart

/-- Witness of C14: the in-memory buffer holding the length bytes of 3 and
then only the two bytes 1, 2. -/
theorem ReadFrame_body_error_dropped_witness :
    (none : Option Error) = none
      ∧ (∃ buf, some ([1, 2, 0] : List Byte) = some buf ∧ buf.length = 3)
      ∧ (∀ (log1 log2 : List ReadCall), SaneReads bufReader →
          readSize (loggedR bufReader) ([0, 0, 0, 3, 1, 2], []) 2 = .ret (([1, 2], log1), 3, none) →
          ReadFrame (loggedR bufReader) ([0, 0, 0, 3, 1, 2], []) 2
            = .ret (([], log2), some [1, 2, 0], none) →
          ∃ calls buf, log2 = log1 ++ calls ∧ some ([1, 2, 0] : List Byte) = some buf
            ∧ buf.take (counted calls).length = counted calls)
      ∧ (∀ (part : List Byte) (l : Nat), l < 2 ^ 32 → part.length < l → 2 ≤ 2 →
          ReadFrame bufReader (PutUint32 l ++ part) 2
            = .ret ([], some (part ++ List.replicate (l - part.length) 0), none)) :=
  ReadFrame_body_error_dropped bufReader [0, 0, 0, 3, 1, 2] [1, 2] [] 2 3 (some [1, 2, 0]) none
    (by decide) (by decide)

/-- C17 (loop index safety): for every payload p with len(p) <= payloadMaxSize,
every sink whose Write calls report a count n with 0 <= n <= len of the slice
and every bound, WriteFrame never reaches a slice expression data[c:] that is
out of range, the count it returns lies between 0 and len(p), and its body
loop entered with any count between 0 and len(p) stays in range; for every
source whose Read calls report such counts, ReadFrame never reaches a slice
expression that is out of range, and its body loop on a buffer of at most
payloadMaxSize bytes entered with any count between 0 and the length of the
buffer stays in range. -/
theorem loop_index_safety {σ τ : Type} (W : Writer σ) (R : Reader τ) (s : σ) (t : τ)
    (data : List Byte) (fuel : Nat) (hd : data.length ≤ payloadMaxSize)
    (hW : SaneWrites W) (hR : SaneReads R) :
    WriteFrame W s data fuel ≠ .panic
      ∧ (∀ (s1 : σ) (c : Int) (e : Option Error),
          WriteFrame W s data fuel = .ret (s1, c, e) → 0 ≤ c ∧ c ≤ (data.length : Int))
      ∧ (∀ (s0 : σ) (c : Int) (err : Option Error), 0 ≤ c → c ≤ (data.length : Int) →
          writeLoop W data fuel s0 c err ≠ .panic
            ∧ ∀ (s1 : σ) (c1 : Int) (e : Option Error),
                writeLoop W data fuel s0 c err = .ret (s1, c1, e) →
                0 ≤ c1 ∧ c1 ≤ (data.length : Int))
      ∧ ReadFrame R t fuel ≠ .panic
      ∧ (∀ (t0 : τ) (sz : Nat) (p : List Byte) (c : Int), p.length ≤ payloadMaxSize →
          0 ≤ c → c ≤ (p.length : Int) → readLoop R sz fuel t0 p c ≠ .panic) := by
  have hloop := writeLoop_sane W hW data hd fuel
  have hgt : ¬ (data.length > payloadMaxSize) := by omega
  refine ⟨?_, ?_, hloop, ReadFrame_sane R hR t fuel, ?_⟩
  · cases hw : (W.Write s (PutUint32 (uint32 data.length))).2.2 with
    | none =>
      simp only [WriteFrame, hgt, if_false, binaryWrite, hw]
      exact (hloop _ 0 none (by omega) (by omega)).1
    | some e1 => simp [WriteFrame, hgt, binaryWrite, hw]
  · intro s1 c e h
    cases hw : (W.Write s (PutUint32 (uint32 data.length))).2.2 with
    | none =>
      simp only [WriteFrame, hgt, if_false, binaryWrite, hw] at h
      exact (hloop _ 0 none (by omega) (by omega)).2 s1 c e h
    | some e1 =>
      simp only [WriteFrame, hgt, if_false, binaryWrite, hw, Outcome.ret.injEq,
        Prod.mk.injEq] at h
      omega
  · intro t0 sz p c hp h0 h1
    rw [payloadMaxSize_eq] at hp
    exact readLoop_sane R hR sz fuel t0 p c h0 h1 (by omega)

/-- Witness of C17: the in-memory buffer as sink and as source, the payload
"foobar" and a buffer holding a frame of three bytes. -/
theorem loop_index_safety_witness :
    WriteFrame bufWriter [] [102, 111, 111, 98, 97, 114] 1 ≠ .panic
      ∧ (∀ (s1 : List Byte) (c : Int) (e : Option Error),
          WriteFrame bufWriter [] [102, 111, 111, 98, 97, 114] 1 = .ret (s1, c, e) →
          0 ≤ c ∧ c ≤ (([102, 111, 111, 98, 97, 114] : List Byte).length : Int))
      ∧ ReadFrame bufReader [0, 0, 0, 3, 1, 2, 3] 1 ≠ .panic :=
  ⟨(loop_index_safety bufWriter bufReader [] [0, 0, 0, 3, 1, 2, 3]
      [102, 111, 111, 98, 97, 114] 1 (by decide) bufWriter_sane bufReader_sane).1,
   (loop_index_safety bufWriter bufReader [] [0, 0, 0, 3, 1, 2, 3]
      [102, 111, 111, 98, 97, 114] 1 (by decide) bufWriter_sane bufReader_sane).2.1,
   (loop_index_safety bufWriter bufReader [] [0, 0, 0, 3, 1, 2, 3]
      [102, 111, 111, 98, 97, 114] 1 (by decide) bufWriter_sane bufReader_sane).2.2.2.1⟩

/-- C15 (reassembly on the read side): for every byte sequence
PutUint32(L) ++ body ++ rest with len(body) = L <= payloadMaxSize and every
source that delivers this sequence in chunks, every Read call being answered
without an error with at least one byte and at most as many as the slice
holds, ReadFrame with a bound of at least 4 and at least L stream calls
returns (body, nil) and leaves exactly rest unread in the source. -/
theorem ReadFrame_reassembly {σ : Type} (R : Reader σ) (rem : σ → List Byte) (s : σ)
    (body rest : List Byte) (fuel : Nat) (hR : DeliversChunks R rem)
    (hs : rem s = PutUint32 body.length ++ body ++ rest)
    (hb : body.length ≤ payloadMaxSize) (hf4 : 4 ≤ fuel) (hfl : body.length ≤ fuel) :
    ∃ s2, ReadFrame R s fuel = .ret (s2, some body, none) ∧ rem s2 = rest := by
  rw [payloadMaxSize_eq] at hb
  exact ReadFrame_chunks R rem hR s body rest fuel hs (by omega) hf4 hfl

/-- Witness of C15: a source that delivers at most 2 bytes a call, holding the
frame of the bytes 1, 2, 3 followed by the byte 9. -/
theorem ReadFrame_reassembly_witness :
    ∃ s2, ReadFrame (chunkReader 2) [0, 0, 0, 3, 1, 2, 3, 9] 4 = .ret (s2, some [1, 2, 3], none)
      ∧ (fun b : List Byte => b) s2 = [9] :=
  ReadFrame_reassembly (chunkReader 2) (fun b => b) [0, 0, 0, 3, 1, 2, 3, 9] [1, 2, 3] [9] 4
    (chunkReader_deliversChunks 2 (by decide)) (by decide) (by decide) (by decide) (by decide)

end lproto
